import Mathlib

/-!
# tcpserial_hook: a shallow embedding of `tcpserial_hook.c`

The C file interposes `read`, `write` and `tcsetattr`, remembers the descriptor
last passed to `tcsetattr` in `serial_fd`, and mirrors every byte transferred on
that descriptor to the TCP observers stored in `client_fds`.

Modelling conventions.

* C `int` / `ssize_t` values are `Int`; `size_t` values are `Nat`; the one
  signed-to-unsigned conversion the code performs is `to_size_t`.
* A buffer is the list of bytes found at the pointer; the pointer itself is an
  address (`Ptr`).
* Every call into the operating system is recorded in `State.trace`, in program
  order.  What the operating system answers is an argument of the embedded
  function, so a theorem quantified over those arguments covers every behaviour
  of the environment.
* Diagnostics (`perror`, `fprintf`) and socket tuning of an accepted client
  (`setsockopt`, `shutdown`, whose results the code ignores) leave no trace event.
-/

set_option maxRecDepth 16000

namespace TcpSerialHook

/-! ## Data model -/

/-- The capacity of the client table: `#define MAX_CLIENTS 8`. -/
abbrev MAX_CLIENTS : Nat := 8

/-- One octet of buffer content. -/
abbrev Byte := Nat

/-- A machine address (`void *`); `0` is `NULL`. -/
abbrev Ptr := Nat

/-- The array `int client_fds[MAX_CLIENTS]`. -/
abbrev Table := Mathlib.Vector Int MAX_CLIENTS

/-- The table with every slot at the empty sentinel. -/
def empty_table : Table := Mathlib.Vector.replicate MAX_CLIENTS (-1)

/-- Conversion of an `ssize_t` to `size_t` (64-bit two's complement), as performed
when `broadcast(buf, bytes)` is called and in `send(...) == bytes`. -/
def to_size_t (x : Int) : Nat := (x % 2 ^ 64).toNat

/-- Calls that leave the process, in the order they are issued.  `accept` and `send`
carry the value the call returned. -/
inductive Event where
  | real_read (fd : Int) (buf : Ptr) (count : Nat)
  | real_write (fd : Int) (buf : Ptr) (count : Nat)
  | real_tcsetattr (fd : Int) (optional_actions : Int) (termios_p : Ptr)
  | accept (client : Int)
  | send (fd : Int) (data : List Byte) (bytes : Nat) (ret : Int)
  | close (fd : Int)
  deriving DecidableEq, Repr

/-- The three calls forwarded to the authentic implementations. -/
def Event.is_real_call : Event → Bool
  | .real_read _ _ _ => true
  | .real_write _ _ _ => true
  | .real_tcsetattr _ _ _ => true
  | _ => false

/-- The globals `serial_fd` and `client_fds`, together with the call history. -/
structure State where
  serial_fd : Int
  client_fds : Table
  trace : List Event
  deriving DecidableEq

/-- Append one call to the history. -/
def State.log (s : State) (e : Event) : State :=
  { s with trace := s.trace ++ [e] }

/-! ## `broadcast` -/

/-- Strong `__atomic_compare_exchange(&client_fds[i], &expected, &desired, 0, ...)`:
the flag says whether the slot held `expected` and was overwritten with `desired`.
(On failure C also copies the slot into `expected`; both callers discard that local.) -/
def compare_exchange (t : Table) (i : Fin MAX_CLIENTS) (expected desired : Int) :
    Bool × Table :=
  if t.get i = expected then (true, t.set i desired) else (false, t)

/-- The body of the loop of `broadcast` for slot `i`; `send_ret i` is what `send`
returns when it is called for that slot. -/
def broadcast_slot (buffer : List Byte) (bytes : Nat) (send_ret : Fin MAX_CLIENTS → Int)
    (s : State) (i : Fin MAX_CLIENTS) : State :=
  let fd := s.client_fds.get i
  if 0 ≤ fd then
    let s1 := s.log (Event.send fd (buffer.take bytes) bytes (send_ret i))
    if to_size_t (send_ret i) = bytes then
      s1
    else
      let r := compare_exchange s1.client_fds i fd (-1)
      let s2 : State := { s1 with client_fds := r.2 }
      if r.1 then s2.log (Event.close fd) else s2
  else
    s

/-- The function `broadcast(buffer, bytes)`: `for (int i = 0; i < MAX_CLIENTS; i++)`. -/
def broadcast (buffer : List Byte) (bytes : Nat) (send_ret : Fin MAX_CLIENTS → Int)
    (s : State) : State :=
  (List.finRange MAX_CLIENTS).foldl (broadcast_slot buffer bytes send_ret) s

/-! ## The interposed operations -/

/-- The hooked `read(fd, buf, count)`.  `ret` is what `real_read` returns and `mem`
the bytes found at `buf` once it has returned. -/
def read (s : State) (fd : Int) (buf : Ptr) (count : Nat)
    (ret : Int) (mem : List Byte) (send_ret : Fin MAX_CLIENTS → Int) : Int × State :=
  let s1 := s.log (Event.real_read fd buf count)
  let bytes := ret
  let local_serial_fd := s1.serial_fd
  if 0 < bytes ∧ fd = local_serial_fd then
    (bytes, broadcast mem (to_size_t bytes) send_ret s1)
  else
    (bytes, s1)

/-- The hooked `write(fd, buf, count)`.  `mem` holds the caller's bytes at `buf` and
`ret` is what `real_write` returns. -/
def write (s : State) (fd : Int) (buf : Ptr) (count : Nat)
    (ret : Int) (mem : List Byte) (send_ret : Fin MAX_CLIENTS → Int) : Int × State :=
  let s1 := s.log (Event.real_write fd buf count)
  let bytes := ret
  let local_serial_fd := s1.serial_fd
  if 0 < bytes ∧ fd = local_serial_fd then
    (bytes, broadcast mem (to_size_t bytes) send_ret s1)
  else
    (bytes, s1)

/-- The hooked `tcsetattr(fd, optional_actions, termios_p)`: the store to `serial_fd`
comes first, then the real call, whose result `ret` is returned. -/
def tcsetattr (s : State) (fd : Int) (optional_actions : Int) (termios_p : Ptr)
    (ret : Int) : Int × State :=
  let s1 : State := { s with serial_fd := fd }
  (ret, s1.log (Event.real_tcsetattr fd optional_actions termios_p))

/-! ## The connection acceptor -/

/-- The slot-claiming loop of `listener_thread`,
`for (int i = 0; i < MAX_CLIENTS && !stored; i++)`, over the indices still to visit:
each turn is a compare-and-swap of slot `i` from `-1` to `client`. -/
def claim_scan (client : Int) : List (Fin MAX_CLIENTS) → Table → Bool × Table
  | [], t => (false, t)
  | i :: rest, t =>
    let r := compare_exchange t i (-1) client
    if r.1 then r else claim_scan client rest r.2

/-- One turn of the `for (;;)` loop of `listener_thread`; `client` is what `accept`
returned.  A negative value is a failed accept (`perror`, `usleep`, `continue`). -/
def listener_iteration (s : State) (client : Int) : State :=
  let s1 := s.log (Event.accept client)
  if client < 0 then
    s1
  else
    let r := claim_scan client (List.finRange MAX_CLIENTS) s1.client_fds
    let s2 : State := { s1 with client_fds := r.2 }
    if r.1 then s2 else s2.log (Event.close client)

/-- The function `listener_thread`: its `for (;;)` loop, run for as many turns as there
are results of `accept`. -/
def listener_thread (s : State) (accepted : List Int) : State :=
  accepted.foldl listener_iteration s

/-! ## Initialisation -/

/-- What the environment answers to the calls made while the library is loaded.
A `dlsym` answer of `0` is `NULL`. -/
structure InitEnv where
  dlsym_read : Ptr
  dlsym_write : Ptr
  dlsym_tcsetattr : Ptr
  socket_ret : Int
  bind_ret : Int
  setsockopt_ret : Int
  listen_ret : Int
  pthread_create_ret : Int
  pthread_detach_ret : Int

/-- What `init_tcpserial_hook_output` leaves behind: its return value, the globals,
and whether the acceptor thread was started. -/
structure OutputResult where
  code : Int
  state : State
  listener_started : Bool
  deriving DecidableEq

/-- How the constructor ends: `abort()`, or a normal return to the loader. -/
inductive InitResult where
  | aborted
  | returned (s : State) (listener_started : Bool)
  deriving DecidableEq

/-- The function `init_tcpserial_hook_output`.  Each of `socket`, `bind`,
`setsockopt(SO_LINGER)` and `listen` ends the function with `return 1` when it fails.
A non-zero result of `pthread_create` or of `pthread_detach` reaches `perror` only: the
function goes on and ends with `return 0`.  (`calloc` is taken to succeed.) -/
def init_tcpserial_hook_output (env : InitEnv) (s : State) : OutputResult :=
  let s1 : State :=
    { s with client_fds :=
        (List.finRange MAX_CLIENTS).foldl (fun t i => t.set i (-1)) s.client_fds }
  if env.socket_ret < 0 then ⟨1, s1, false⟩
  else if env.bind_ret < 0 then ⟨1, s1, false⟩
  else if env.setsockopt_ret < 0 then ⟨1, s1, false⟩
  else if env.listen_ret < 0 then ⟨1, s1, false⟩
  else
    let started : Bool := if env.pthread_create_ret ≠ 0 then false else true
    ⟨0, s1, started⟩

/-- The constructor `init_tcpserial_hook`, run on the state `s` the loader left:
`serial_fd = -1`, the three `dlsym` lookups, `abort()` if one is `NULL`,
`unsetenv("LD_PRELOAD")`, then `abort()` if `init_tcpserial_hook_output()` is non-zero. -/
def init_tcpserial_hook (env : InitEnv) (s : State) : InitResult :=
  let s1 : State := { s with serial_fd := -1 }
  if env.dlsym_read = 0 ∨ env.dlsym_write = 0 ∨ env.dlsym_tcsetattr = 0 then
    InitResult.aborted
  else
    let r := init_tcpserial_hook_output env s1
    if r.code ≠ 0 then InitResult.aborted else InitResult.returned r.state r.listener_started

/-- Static storage before the constructor runs: C zero-initialises both globals. -/
def zero_state : State :=
  { serial_fd := 0, client_fds := Mathlib.Vector.replicate MAX_CLIENTS 0, trace := [] }

/-! ## Sequences of calls and what an observer receives -/

/-- The calls one run of `broadcast` issues on behalf of slot `i` of the table `t`. -/
def slot_events (buffer : List Byte) (bytes : Nat) (send_ret : Fin MAX_CLIENTS → Int)
    (t : Table) (i : Fin MAX_CLIENTS) : List Event :=
  if 0 ≤ t.get i then
    Event.send (t.get i) (buffer.take bytes) bytes (send_ret i) ::
      (if to_size_t (send_ret i) = bytes then [] else [Event.close (t.get i)])
  else
    []

/-- The part of a history that was issued after the history `before`. -/
def issued_since (before : State) (after : State) : List Event :=
  after.trace.drop before.trace.length

/-- How often `close(d)` occurs in a list of calls. -/
def close_count (d : Int) (es : List Event) : Nat :=
  es.count (Event.close d)

/-- The `send` calls of a list of calls, in order. -/
def sends (es : List Event) : List Event :=
  es.filter fun e => match e with
    | Event.send _ _ _ _ => true
    | _ => false

/-- The bytes that reach the peer of descriptor `o`: for every `send` on `o`, the
part of the data the call reports as transferred. -/
def delivered (o : Int) : List Event → List Byte
  | [] => []
  | Event.send fd data _ ret :: es =>
    if fd = o then data.take ret.toNat ++ delivered o es else delivered o es
  | _ :: es => delivered o es

/-- One call of the host into an interposed operation, with the answers of the
environment during that call. -/
inductive Call where
  | read (fd : Int) (buf : Ptr) (count : Nat) (ret : Int) (mem : List Byte)
      (send_ret : Fin MAX_CLIENTS → Int)
  | write (fd : Int) (buf : Ptr) (count : Nat) (ret : Int) (mem : List Byte)
      (send_ret : Fin MAX_CLIENTS → Int)
  | tcsetattr (fd : Int) (optional_actions : Int) (termios_p : Ptr) (ret : Int)

/-- The state after one call. -/
def Call.run (s : State) : Call → State
  | Call.read fd buf count ret mem send_ret => (TcpSerialHook.read s fd buf count ret mem send_ret).2
  | Call.write fd buf count ret mem send_ret => (TcpSerialHook.write s fd buf count ret mem send_ret).2
  | Call.tcsetattr fd optional_actions termios_p ret =>
    (TcpSerialHook.tcsetattr s fd optional_actions termios_p ret).2

/-- Calls run one after another. -/
def run_calls (s : State) (cs : List Call) : State :=
  cs.foldl Call.run s

/-- A finite sequence of hooked `tcsetattr` calls run one after another; an entry is
`(fd, optional_actions, termios_p, ret)` with `ret` the result of the real call. -/
def run_tcsetattr (s : State) (calls : List (Int × Int × Ptr × Int)) : State :=
  calls.foldl (fun st c => (tcsetattr st c.1 c.2.1 c.2.2.1 c.2.2.2).2) s

/-- The real result of a call is an `ssize_t` (an `int` for `tcsetattr`). -/
def Call.in_range : Call → Prop
  | Call.read _ _ _ ret _ _ => -(2 ^ 63) ≤ ret ∧ ret < 2 ^ 63
  | Call.write _ _ _ ret _ _ => -(2 ^ 63) ≤ ret ∧ ret < 2 ^ 63
  | Call.tcsetattr _ _ _ ret => -(2 ^ 31) ≤ ret ∧ ret < 2 ^ 31

/-- The bytes a call transfers on the serial descriptor `serial`: the first `ret`
bytes of the buffer of a read or write on `serial` whose real result `ret` is positive. -/
def Call.transferred (serial : Int) : Call → List Byte
  | Call.read fd _ _ ret mem _ => if 0 < ret ∧ fd = serial then mem.take ret.toNat else []
  | Call.write fd _ _ ret mem _ => if 0 < ret ∧ fd = serial then mem.take ret.toNat else []
  | Call.tcsetattr _ _ _ _ => []

/-- The concatenation, in call order, of what the calls transfer on the descriptor
held by `serial_fd` at the time of each call. -/
def mirror_stream : State → List Call → List Byte
  | _, [] => []
  | s, c :: cs => c.transferred s.serial_fd ++ mirror_stream (c.run s) cs

/-- The send issued for slot `j` during this call, if the call broadcasts, returns the
full count. -/
def Call.full_at (j : Fin MAX_CLIENTS) (serial : Int) : Call → Prop
  | Call.read fd _ _ ret _ send_ret => 0 < ret ∧ fd = serial → send_ret j = ret
  | Call.write fd _ _ ret _ send_ret => 0 < ret ∧ fd = serial → send_ret j = ret
  | Call.tcsetattr _ _ _ _ => True

/-- Every send issued for slot `j` during the calls completes in full. -/
def sends_complete (j : Fin MAX_CLIENTS) : State → List Call → Prop
  | _, [] => True
  | s, c :: cs => c.full_at j s.serial_fd ∧ sends_complete j (c.run s) cs

/-! ## Acceptor and dispatcher steps, and which descriptors are open -/

/-- No descriptor occupies two slots. -/
def distinct_descriptors (t : Table) : Prop :=
  ∀ i j : Fin MAX_CLIENTS, 0 ≤ t.get i → t.get i = t.get j → i = j

instance (t : Table) : Decidable (distinct_descriptors t) := by
  unfold distinct_descriptors
  infer_instance

/-- Every send result is an `ssize_t`. -/
def ssize_range (send_ret : Fin MAX_CLIENTS → Int) : Prop :=
  ∀ i, -(2 ^ 63) ≤ send_ret i ∧ send_ret i < 2 ^ 63

instance (send_ret : Fin MAX_CLIENTS → Int) : Decidable (ssize_range send_ret) := by
  unfold ssize_range
  infer_instance

/-- The effect of one call on the set of open observer descriptors. -/
def open_step (o : List Int) : Event → List Int
  | Event.accept c => if 0 ≤ c then c :: o else o
  | Event.close c => o.filter fun d => d ≠ c
  | _ => o

/-- The observer descriptors that a history has accepted and not closed since. -/
def open_fds (tr : List Event) : List Int :=
  tr.foldl open_step []

/-- One step of the system: a turn of the acceptor loop with the value `accept`
returned, one run of `broadcast`, or one call of the host into an interposed operation. -/
inductive Step where
  | accept (client : Int)
  | broadcast (buffer : List Byte) (bytes : Nat) (send_ret : Fin MAX_CLIENTS → Int)
  | call (c : Call)

/-- The state after one step. -/
def Step.run (s : State) : Step → State
  | Step.accept client => listener_thread s [client]
  | Step.broadcast buffer bytes send_ret => TcpSerialHook.broadcast buffer bytes send_ret s
  | Step.call c => c.run s

/-- Steps run one after another. -/
def run_steps (s : State) (steps : List Step) : State :=
  steps.foldl Step.run s

/-- The operating system hands out, on a successful accept, a descriptor that is not
open at that moment. -/
def Step.fresh (s : State) : Step → Prop
  | Step.accept client => 0 ≤ client → client ∉ open_fds s.trace
  | Step.broadcast _ _ _ => True
  | Step.call _ => True

instance (s : State) (st : Step) : Decidable (st.fresh s) := by
  cases st <;> unfold Step.fresh <;> infer_instance

/-- Every accept of the sequence is fresh in the state it is run in. -/
def accepts_fresh : State → List Step → Prop
  | _, [] => True
  | s, st :: rest => st.fresh s ∧ accepts_fresh (st.run s) rest

/-- The invariant of the client table: a slot is empty or holds a non-negative
descriptor that an accept returned and that is still open, and no descriptor is in
two slots. -/
def table_invariant (s : State) : Prop :=
  (∀ i : Fin MAX_CLIENTS, s.client_fds.get i = -1 ∨
      (0 ≤ s.client_fds.get i ∧ Event.accept (s.client_fds.get i) ∈ s.trace ∧
        s.client_fds.get i ∈ open_fds s.trace)) ∧
    ∀ i j : Fin MAX_CLIENTS, s.client_fds.get i = s.client_fds.get j →
      s.client_fds.get i ≠ -1 → i = j

/-- How often a history records `accept` returning `d`. -/
def accept_count (d : Int) (es : List Event) : Nat :=
  es.count (Event.accept d)

/-- No accepted connection is leaked or closed twice: a non-negative descriptor has
either been accepted once more than closed and sits in a slot, or been closed as often
as accepted and sits in no slot. -/
def balanced (s : State) : Prop :=
  ∀ d : Int, 0 ≤ d →
    (accept_count d s.trace = close_count d s.trace + 1 ∧ ∃ k, s.client_fds.get k = d) ∨
    (accept_count d s.trace = close_count d s.trace ∧ ∀ k, s.client_fds.get k ≠ d)

/-! ## Sample inputs -/

/-- An environment in which every initialisation step succeeds. -/
def all_succeed : InitEnv :=
  { dlsym_read := 4096, dlsym_write := 4112, dlsym_tcsetattr := 4128,
    socket_ret := 3, bind_ret := 0, setsockopt_ret := 0, listen_ret := 0,
    pthread_create_ret := 0, pthread_detach_ret := 0 }

/-- A table with two observers, descriptors 9 and 10, in slots 0 and 2. -/
def sample_table : Table := ⟨[9, -1, 10, -1, -1, -1, -1, -1], rfl⟩

/-- Descriptor 5 is the serial port; observers 9 and 10 are connected. -/
def sample_state : State :=
  { serial_fd := 5, client_fds := sample_table, trace := [] }

/-- A table in which descriptor 3 sits in slots 0 and 1. -/
def shared_table : Table := ⟨[3, 3, -1, -1, -1, -1, -1, -1], rfl⟩

/-- The state around `shared_table`. -/
def shared_state : State :=
  { serial_fd := 5, client_fds := shared_table, trace := [] }

/-- Send results for a two-byte chunk: slot 0 takes both bytes, every other send fails. -/
def only_slot0_keeps_up : Fin MAX_CLIENTS → Int :=
  fun i => if i = 0 then 2 else -1

/-- Every send fails with `-1`. -/
def all_sends_fail : Fin MAX_CLIENTS → Int :=
  fun _ => -1

/-- Send results for a one-byte chunk: slot 0 takes the byte, every other send fails. -/
def only_slot0_sends : Fin MAX_CLIENTS → Int :=
  fun i => if i = 0 then 1 else -1

/-- Every step succeeds except `pthread_create`, which returns `EAGAIN` (11). -/
def thread_start_fails : InitEnv :=
  { all_succeed with pthread_create_ret := 11 }

/-- One observer, descriptor 9, connected; the serial descriptor is not yet known. -/
def one_observer : State :=
  { serial_fd := -1, client_fds := ⟨[9, -1, -1, -1, -1, -1, -1, -1], rfl⟩, trace := [] }

/-- The scenario "configure descriptor 5, then write ABCD to it": `tcsetattr(5, ...)`
returning 0, then `write(5, "ABCD", 4)` returning 4 with every send complete. -/
def configure_then_write : List Call :=
  [Call.tcsetattr 5 0 64 0, Call.write 5 128 4 4 [65, 66, 67, 68] (fun _ => 4)]

/-- The state the constructor leaves when every step succeeds. -/
def booted : State :=
  { serial_fd := -1, client_fds := empty_table, trace := [] }

/-- Observers 9 and 10 connect, a one-byte chunk is broadcast that observer 9 does not
take, and the next connection is handed descriptor 9 again. -/
def connect_evict_reconnect : List Step :=
  [Step.accept 9, Step.accept 10,
    Step.broadcast [88] 1 (fun i => if i = 0 then -1 else 1), Step.accept 9]

/-- Eight observers, descriptors 9 to 16, connect and fill the table. -/
def eight_observers : List Step :=
  [Step.accept 9, Step.accept 10, Step.accept 11, Step.accept 12, Step.accept 13,
    Step.accept 14, Step.accept 15, Step.accept 16]

/-- Send results for a two-byte chunk when only the observer in slot 3 is stalled. -/
def slot3_stalled : Fin MAX_CLIENTS → Int :=
  fun i => if i = 3 then -1 else 2

/-- Observers 9 and 10 connect and descriptor 5 is configured as the serial port. -/
def two_observers : List Step :=
  [Step.accept 9, Step.accept 10, Step.call (Call.tcsetattr 5 0 64 0)]

/-- Send results for a two-byte chunk when the observer in slot 1 is stalled: its send
fails with `-1` (`EWOULDBLOCK`), every other send takes both bytes. -/
def slot1_stalled : Fin MAX_CLIENTS → Int :=
  fun i => if i = 1 then -1 else 2

/-- Every send takes both bytes of a two-byte chunk. -/
def all_keep_up : Fin MAX_CLIENTS → Int :=
  fun _ => 2

/-- The scenario "two observers, one stalled, XY written twice, a third observer
connects": the stalled observer's send fails during the first write. -/
def xy_twice_then_third : List Step :=
  two_observers ++
    [Step.call (Call.write 5 128 2 2 [88, 89] slot1_stalled),
      Step.call (Call.write 5 128 2 2 [88, 89] all_keep_up),
      Step.accept 11]

/-! ## Interleaved executions

`broadcast` runs inside whichever host thread called `read` or `write`, so several
invocations can be in flight at once, next to the acceptor thread.  The machine below
runs them one atomic step at a time (`__atomic_load`, `send`, `__atomic_compare_exchange`,
`close`, `accept`), in whatever order a schedule prescribes.  A connection is identified
by the order in which it was accepted (`0`, `1`, ...); the descriptor number that
designates it can be handed out again once it has been closed. -/

/-- The next atomic step of a `broadcast` invocation in the loop body of its current
slot.  `fd` is the local variable of the same name; `obs` records which connection
that descriptor designated when the slot was loaded. -/
inductive Phase where
  | load
  | send (fd : Int) (obs : Option Nat)
  | cas (fd : Int) (obs : Option Nat)
  | close (fd : Int) (obs : Option Nat)
  deriving DecidableEq, Repr

/-- One invocation of `broadcast(buffer, bytes)`: its loop index and where it stands. -/
structure Invocation where
  bytes : Nat
  i : Nat
  phase : Phase
  deriving DecidableEq, Repr

/-- The next atomic step of `listener_thread`: the `accept`, or turn `i` of the
slot-claiming loop for the accepted `client` (turn `MAX_CLIENTS` is the exit of the
loop with nothing stored, where the client is closed). -/
inductive Acceptor where
  | accept
  | claim (client : Int) (i : Nat)
  deriving DecidableEq, Repr

/-- What happened, step by step.  `tid` numbers the invocations in the order they
entered `broadcast`. -/
inductive Record where
  | loaded (tid : Nat) (slot : Nat) (fd : Int) (obs : Option Nat)
  | sent (tid : Nat) (slot : Nat) (fd : Int) (conn : Option Nat) (ret : Int)
  | swapped (tid : Nat) (slot : Nat) (fd : Int) (obs : Option Nat) (won : Bool)
  | closed (tid : Nat) (fd : Int) (obs : Option Nat) (conn : Option Nat)
  | accepted (fd : Int) (conn : Nat)
  | claimed (slot : Nat) (fd : Int) (stored : Bool)
  | refused (fd : Int) (conn : Option Nat)
  deriving DecidableEq, Repr

/-- The shared table, the open observer sockets (descriptor number and connection),
the number of connections accepted so far, and the threads. -/
structure Machine where
  client_fds : Table
  sockets : List (Int × Nat)
  connections : Nat
  invocations : List Invocation
  acceptor : Acceptor
  log : List Record
  deriving DecidableEq

/-- The connection a descriptor number designates at the moment, if it is open. -/
def Machine.conn_of (m : Machine) (fd : Int) : Option Nat :=
  m.sockets.lookup fd

/-- The kernel's `close(fd)`: the descriptor number becomes free. -/
def Machine.release (m : Machine) (fd : Int) : List (Int × Nat) :=
  m.sockets.filter fun p => p.1 ≠ fd

/-- One atomic step of invocation `tid`; `ans` is what `send` returns when the step is
the send. -/
def Machine.step_invocation (m : Machine) (tid : Nat) (ans : Int) : Option Machine :=
  match m.invocations[tid]? with
  | none => none
  | some v =>
    if h : v.i < MAX_CLIENTS then
      match v.phase with
      | Phase.load =>
        let fd := m.client_fds.get ⟨v.i, h⟩
        let obs := m.conn_of fd
        let v1 : Invocation :=
          if 0 ≤ fd then { v with phase := Phase.send fd obs } else { v with i := v.i + 1 }
        some { m with
          invocations := m.invocations.set tid v1
          log := m.log ++ [Record.loaded tid v.i fd obs] }
      | Phase.send fd obs =>
        let v1 : Invocation :=
          if to_size_t ans = v.bytes then { v with i := v.i + 1, phase := Phase.load }
          else { v with phase := Phase.cas fd obs }
        some { m with
          invocations := m.invocations.set tid v1
          log := m.log ++ [Record.sent tid v.i fd (m.conn_of fd) ans] }
      | Phase.cas fd obs =>
        let r := compare_exchange m.client_fds ⟨v.i, h⟩ fd (-1)
        let v1 : Invocation :=
          if r.1 then { v with phase := Phase.close fd obs }
          else { v with i := v.i + 1, phase := Phase.load }
        some { m with
          client_fds := r.2
          invocations := m.invocations.set tid v1
          log := m.log ++ [Record.swapped tid v.i fd obs r.1] }
      | Phase.close fd obs =>
        some { m with
          sockets := m.release fd
          invocations := m.invocations.set tid { v with i := v.i + 1, phase := Phase.load }
          log := m.log ++ [Record.closed tid fd obs (m.conn_of fd)] }
    else
      none

/-- One atomic step of the acceptor thread; `ans` is what `accept` returns when the
step is the accept.  The kernel never returns a descriptor number that is open. -/
def Machine.step_acceptor (m : Machine) (ans : Int) : Option Machine :=
  match m.acceptor with
  | Acceptor.accept =>
    if ans < 0 then
      some m
    else if (m.conn_of ans).isSome then
      none
    else
      some { m with
        sockets := (ans, m.connections) :: m.sockets
        connections := m.connections + 1
        acceptor := Acceptor.claim ans 0
        log := m.log ++ [Record.accepted ans m.connections] }
  | Acceptor.claim client i =>
    if h : i < MAX_CLIENTS then
      let r := compare_exchange m.client_fds ⟨i, h⟩ (-1) client
      some { m with
        client_fds := r.2
        acceptor := if r.1 then Acceptor.accept else Acceptor.claim client (i + 1)
        log := m.log ++ [Record.claimed i client r.1] }
    else
      some { m with
        sockets := m.release client
        acceptor := Acceptor.accept
        log := m.log ++ [Record.refused client (m.conn_of client)] }

/-- What the scheduler and the environment decide at each step. -/
inductive Action where
  | enter (bytes : Nat)
  | invocation (tid : Nat) (ans : Int)
  | acceptor (ans : Int)
  deriving DecidableEq, Repr

/-- One step of the machine; `none` when the action is not possible. -/
def Machine.step (m : Machine) : Action → Option Machine
  | Action.enter bytes =>
    some { m with invocations := m.invocations ++ [{ bytes := bytes, i := 0, phase := Phase.load }] }
  | Action.invocation tid ans => m.step_invocation tid ans
  | Action.acceptor ans => m.step_acceptor ans

/-- A schedule run from a machine state. -/
def Machine.exec (m : Machine) : List Action → Option Machine
  | [] => some m
  | a :: rest =>
    match m.step a with
    | none => none
    | some m1 => m1.exec rest

/-- The invocations whose compare-and-swap succeeded after they had observed
connection `c` in the slot and their send to it had fallen short. -/
def swap_winners (c : Nat) (log : List Record) : List Nat :=
  log.filterMap fun r =>
    match r with
    | Record.swapped tid _ _ (some c1) true => if c1 = c then some tid else none
    | _ => none

/-- The `close` calls made by invocations that had observed connection `c`: who
called, and which connection the call actually closed. -/
def closes_by_observers (c : Nat) (log : List Record) : List (Nat × Option Nat) :=
  log.filterMap fun r =>
    match r with
    | Record.closed tid _ (some c1) conn => if c1 = c then some (tid, conn) else none
    | _ => none

/-- The machine right after the constructor: empty table, acceptor waiting. -/
def power_on : Machine :=
  { client_fds := empty_table, sockets := [], connections := 0, invocations := [],
    acceptor := Acceptor.accept, log := [] }

/-- An interleaving of two `broadcast` invocations and the acceptor.  Connection 0
arrives on descriptor 5 and takes slot 0.  Invocations 0 and 1 both load slot 0 and
both see their send fail.  Invocation 1 swaps the slot to `-1` and closes descriptor 5.
The acceptor accepts connection 1, which the kernel numbers 5 again, and stores it in
slot 0.  Only then does invocation 0 attempt its swap, and close. -/
def reuse_schedule : List Action :=
  [Action.acceptor 5, Action.acceptor 0,
    Action.enter 4, Action.enter 4,
    Action.invocation 0 0, Action.invocation 0 (-1),
    Action.invocation 1 0, Action.invocation 1 (-1),
    Action.invocation 1 0, Action.invocation 1 0,
    Action.acceptor 5, Action.acceptor 0,
    Action.invocation 0 0, Action.invocation 0 0]

/-! ## The effect of one run of `broadcast` -/

theorem compare_exchange_same (t : Table) (i : Fin MAX_CLIENTS) (d : Int) :
    compare_exchange t i (t.get i) d = (true, t.set i d) := by
  simp [compare_exchange]

theorem broadcast_slot_serial (buffer : List Byte) (bytes : Nat)
    (send_ret : Fin MAX_CLIENTS → Int) (s : State) (i : Fin MAX_CLIENTS) :
    (broadcast_slot buffer bytes send_ret s i).serial_fd = s.serial_fd := by
  unfold broadcast_slot
  simp only [State.log, compare_exchange_same]
  split_ifs <;> rfl

theorem broadcast_slot_trace (buffer : List Byte) (bytes : Nat)
    (send_ret : Fin MAX_CLIENTS → Int) (s : State) (i : Fin MAX_CLIENTS) :
    (broadcast_slot buffer bytes send_ret s i).trace =
      s.trace ++ slot_events buffer bytes send_ret s.client_fds i := by
  unfold broadcast_slot slot_events
  simp only [State.log, compare_exchange_same]
  split_ifs <;> simp

theorem broadcast_slot_table (buffer : List Byte) (bytes : Nat)
    (send_ret : Fin MAX_CLIENTS → Int) (s : State) (i : Fin MAX_CLIENTS) :
    (broadcast_slot buffer bytes send_ret s i).client_fds =
      if 0 ≤ s.client_fds.get i ∧ to_size_t (send_ret i) ≠ bytes then
        s.client_fds.set i (-1)
      else s.client_fds := by
  unfold broadcast_slot
  simp only [State.log, compare_exchange_same]
  split_ifs <;> simp_all

theorem flatMap_congr_mem {α β : Type} (l : List α) (f g : α → List β)
    (h : ∀ a ∈ l, f a = g a) : l.flatMap f = l.flatMap g := by
  induction l with
  | nil => rfl
  | cons a rest ih =>
    simp only [List.flatMap_cons]
    rw [h a (List.mem_cons_self a rest),
      ih fun b hb => h b (List.mem_cons_of_mem a hb)]

theorem slot_events_congr (buffer : List Byte) (bytes : Nat)
    (send_ret : Fin MAX_CLIENTS → Int) (t u : Table) (k : Fin MAX_CLIENTS)
    (h : u.get k = t.get k) :
    slot_events buffer bytes send_ret u k = slot_events buffer bytes send_ret t k := by
  simp [slot_events, h]

theorem broadcast_slot_get_other (buffer : List Byte) (bytes : Nat)
    (send_ret : Fin MAX_CLIENTS → Int) (s : State) (i k : Fin MAX_CLIENTS) (h : k ≠ i) :
    (broadcast_slot buffer bytes send_ret s i).client_fds.get k = s.client_fds.get k := by
  rw [broadcast_slot_table]
  split_ifs
  · exact Mathlib.Vector.get_set_of_ne (Ne.symm h) _
  · rfl

theorem broadcast_slot_get_same (buffer : List Byte) (bytes : Nat)
    (send_ret : Fin MAX_CLIENTS → Int) (s : State) (i : Fin MAX_CLIENTS) :
    (broadcast_slot buffer bytes send_ret s i).client_fds.get i =
      if 0 ≤ s.client_fds.get i ∧ to_size_t (send_ret i) ≠ bytes then -1
      else s.client_fds.get i := by
  rw [broadcast_slot_table]
  split_ifs
  · exact Mathlib.Vector.get_set_same _ _ _
  · rfl

/-- The loop of `broadcast` over a duplicate-free list of indices: the serial slot is
untouched, the calls issued are those of each visited slot in order, and a slot is
cleared exactly when it was visited, occupied and its send fell short. -/
theorem broadcast_fold (buffer : List Byte) (bytes : Nat)
    (send_ret : Fin MAX_CLIENTS → Int) (l : List (Fin MAX_CLIENTS)) (hl : l.Nodup)
    (s : State) :
    (l.foldl (broadcast_slot buffer bytes send_ret) s).serial_fd = s.serial_fd ∧
    (l.foldl (broadcast_slot buffer bytes send_ret) s).trace =
      s.trace ++ l.flatMap (slot_events buffer bytes send_ret s.client_fds) ∧
    ∀ j, (l.foldl (broadcast_slot buffer bytes send_ret) s).client_fds.get j =
      if j ∈ l ∧ 0 ≤ s.client_fds.get j ∧ to_size_t (send_ret j) ≠ bytes then -1
      else s.client_fds.get j := by
  induction l generalizing s with
  | nil => simp
  | cons i rest ih =>
    have hi : i ∉ rest := (List.nodup_cons.mp hl).1
    obtain ⟨h1, h2, h3⟩ := ih (List.nodup_cons.mp hl).2 (broadcast_slot buffer bytes send_ret s i)
    simp only [List.foldl_cons]
    refine ⟨?_, ?_, ?_⟩
    · rw [h1, broadcast_slot_serial]
    · rw [h2, broadcast_slot_trace, List.flatMap_cons, List.append_assoc]
      congr 2
      apply flatMap_congr_mem
      intro k hk
      apply slot_events_congr
      apply broadcast_slot_get_other
      rintro rfl
      exact hi hk
    · intro j
      rw [h3 j]
      by_cases hji : j = i
      · subst hji
        rw [broadcast_slot_get_same]
        simp only [hi, false_and, if_false, List.mem_cons, true_or, true_and]
      · rw [broadcast_slot_get_other _ _ _ _ _ _ hji]
        simp only [List.mem_cons, hji, false_or]

theorem broadcast_serial (buffer : List Byte) (bytes : Nat)
    (send_ret : Fin MAX_CLIENTS → Int) (s : State) :
    (broadcast buffer bytes send_ret s).serial_fd = s.serial_fd :=
  (broadcast_fold buffer bytes send_ret _ (List.nodup_finRange _) s).1

theorem broadcast_trace (buffer : List Byte) (bytes : Nat)
    (send_ret : Fin MAX_CLIENTS → Int) (s : State) :
    (broadcast buffer bytes send_ret s).trace =
      s.trace ++ (List.finRange MAX_CLIENTS).flatMap
        (slot_events buffer bytes send_ret s.client_fds) :=
  (broadcast_fold buffer bytes send_ret _ (List.nodup_finRange _) s).2.1

theorem broadcast_get (buffer : List Byte) (bytes : Nat)
    (send_ret : Fin MAX_CLIENTS → Int) (s : State) (j : Fin MAX_CLIENTS) :
    (broadcast buffer bytes send_ret s).client_fds.get j =
      if 0 ≤ s.client_fds.get j ∧ to_size_t (send_ret j) ≠ bytes then -1
      else s.client_fds.get j := by
  have h := (broadcast_fold buffer bytes send_ret _ (List.nodup_finRange _) s).2.2 j
  simpa [broadcast] using h

/-! ## The interposed operations -/

theorem slot_events_no_real_call (buffer : List Byte) (bytes : Nat)
    (send_ret : Fin MAX_CLIENTS → Int) (t : Table) (l : List (Fin MAX_CLIENTS)) :
    (l.flatMap (slot_events buffer bytes send_ret t)).filter Event.is_real_call = [] := by
  induction l with
  | nil => rfl
  | cons i rest ih =>
    rw [List.flatMap_cons, List.filter_append, ih, List.append_nil]
    unfold slot_events
    split_ifs <;> simp [Event.is_real_call]

theorem broadcast_real_calls (buffer : List Byte) (bytes : Nat)
    (send_ret : Fin MAX_CLIENTS → Int) (s : State) :
    (broadcast buffer bytes send_ret s).trace.filter Event.is_real_call =
      s.trace.filter Event.is_real_call := by
  rw [broadcast_trace, List.filter_append, slot_events_no_real_call, List.append_nil]

theorem read_unfold (s : State) (fd : Int) (buf : Ptr) (count : Nat) (ret : Int)
    (mem : List Byte) (send_ret : Fin MAX_CLIENTS → Int) :
    read s fd buf count ret mem send_ret =
      if 0 < ret ∧ fd = s.serial_fd then
        (ret, broadcast mem (to_size_t ret) send_ret (s.log (Event.real_read fd buf count)))
      else (ret, s.log (Event.real_read fd buf count)) := rfl

theorem write_unfold (s : State) (fd : Int) (buf : Ptr) (count : Nat) (ret : Int)
    (mem : List Byte) (send_ret : Fin MAX_CLIENTS → Int) :
    write s fd buf count ret mem send_ret =
      if 0 < ret ∧ fd = s.serial_fd then
        (ret, broadcast mem (to_size_t ret) send_ret (s.log (Event.real_write fd buf count)))
      else (ret, s.log (Event.real_write fd buf count)) := rfl

theorem read_state (s : State) (fd : Int) (buf : Ptr) (count : Nat) (ret : Int)
    (mem : List Byte) (send_ret : Fin MAX_CLIENTS → Int) :
    (read s fd buf count ret mem send_ret).2 =
      if 0 < ret ∧ fd = s.serial_fd then
        broadcast mem (to_size_t ret) send_ret (s.log (Event.real_read fd buf count))
      else s.log (Event.real_read fd buf count) := by
  rw [read_unfold]
  split_ifs <;> dsimp only

theorem write_state (s : State) (fd : Int) (buf : Ptr) (count : Nat) (ret : Int)
    (mem : List Byte) (send_ret : Fin MAX_CLIENTS → Int) :
    (write s fd buf count ret mem send_ret).2 =
      if 0 < ret ∧ fd = s.serial_fd then
        broadcast mem (to_size_t ret) send_ret (s.log (Event.real_write fd buf count))
      else s.log (Event.real_write fd buf count) := by
  rw [write_unfold]
  split_ifs <;> dsimp only

/-- C1: for every state (serial descriptor slot, client table, history), every
argument list and every outcome of the real call and of the sends, each of the hooked
`read`, `write` and `tcsetattr` returns exactly the value the real operation returned,
and adds to the calls forwarded to the real operations exactly one call, the real
operation with the caller's own arguments. -/
theorem hooks_forward_once_and_return_verbatim (s : State) (fd : Int) (buf : Ptr)
    (count : Nat) (ret : Int) (mem : List Byte) (send_ret : Fin MAX_CLIENTS → Int)
    (optional_actions : Int) (termios_p : Ptr) :
    ((read s fd buf count ret mem send_ret).1 = ret ∧
      (read s fd buf count ret mem send_ret).2.trace.filter Event.is_real_call =
        s.trace.filter Event.is_real_call ++ [Event.real_read fd buf count]) ∧
    ((write s fd buf count ret mem send_ret).1 = ret ∧
      (write s fd buf count ret mem send_ret).2.trace.filter Event.is_real_call =
        s.trace.filter Event.is_real_call ++ [Event.real_write fd buf count]) ∧
    ((tcsetattr s fd optional_actions termios_p ret).1 = ret ∧
      (tcsetattr s fd optional_actions termios_p ret).2.trace.filter Event.is_real_call =
        s.trace.filter Event.is_real_call ++
          [Event.real_tcsetattr fd optional_actions termios_p]) := by
  refine ⟨⟨?_, ?_⟩, ⟨?_, ?_⟩, ⟨rfl, ?_⟩⟩
  · rw [read_unfold]
    split_ifs <;> rfl
  · rw [read_unfold]
    split_ifs
    · simp [broadcast_real_calls, State.log, List.filter_append, Event.is_real_call]
    · simp [State.log, List.filter_append, Event.is_real_call]
  · rw [write_unfold]
    split_ifs <;> rfl
  · rw [write_unfold]
    split_ifs
    · simp [broadcast_real_calls, State.log, List.filter_append, Event.is_real_call]
    · simp [State.log, List.filter_append, Event.is_real_call]
  · simp [tcsetattr, State.log, List.filter_append, Event.is_real_call]

/-- C2: a hooked `read` or `write` whose descriptor differs from the serial descriptor
slot, or whose real result is zero or negative, leaves the serial descriptor slot and
the whole client table unchanged and issues no call besides the real operation: no
`send`, no `close`. -/
theorem passthrough_has_no_effect (s : State) (fd : Int) (buf : Ptr) (count : Nat)
    (ret : Int) (mem : List Byte) (send_ret : Fin MAX_CLIENTS → Int)
    (h : fd ≠ s.serial_fd ∨ ret ≤ 0) :
    ((read s fd buf count ret mem send_ret).2.serial_fd = s.serial_fd ∧
      (read s fd buf count ret mem send_ret).2.client_fds = s.client_fds ∧
      (read s fd buf count ret mem send_ret).2.trace =
        s.trace ++ [Event.real_read fd buf count]) ∧
    ((write s fd buf count ret mem send_ret).2.serial_fd = s.serial_fd ∧
      (write s fd buf count ret mem send_ret).2.client_fds = s.client_fds ∧
      (write s fd buf count ret mem send_ret).2.trace =
        s.trace ++ [Event.real_write fd buf count]) := by
  have hc : ¬ (0 < ret ∧ fd = s.serial_fd) := by
    rintro ⟨h1, h2⟩
    rcases h with h | h
    · exact h h2
    · omega
  constructor
  · rw [read_unfold, if_neg hc]
    exact ⟨rfl, rfl, rfl⟩
  · rw [write_unfold, if_neg hc]
    exact ⟨rfl, rfl, rfl⟩

theorem passthrough_has_no_effect_witness :
    (read sample_state 4 0 16 3 [1, 2, 3]
        (fun _ => 3)).2.trace = [Event.real_read 4 0 16] ∧
    (write sample_state 4 0 16 3 [1, 2, 3]
        (fun _ => 3)).2.client_fds = sample_table :=
  ⟨(passthrough_has_no_effect sample_state 4 0 16 3
      [1, 2, 3] (fun _ => 3) (Or.inl (by decide))).1.2.2,
    (passthrough_has_no_effect sample_state 4 0 16 3
      [1, 2, 3] (fun _ => 3) (Or.inl (by decide))).2.2.1⟩

theorem init_output_serial (env : InitEnv) (s : State) :
    (init_tcpserial_hook_output env s).state.serial_fd = s.serial_fd := by
  unfold init_tcpserial_hook_output
  split_ifs <;> rfl

theorem run_tcsetattr_append (s : State) (a b : List (Int × Int × Ptr × Int)) :
    run_tcsetattr s (a ++ b) = run_tcsetattr (run_tcsetattr s a) b := by
  simp [run_tcsetattr, List.foldl_append]

/-- C4: the constructor, whenever it returns, leaves `-1` in the serial descriptor
slot; after a non-empty sequence of hooked `tcsetattr` calls the slot holds the
descriptor argument of the last call, whatever the real calls returned; and hooked
`read` and `write` leave the slot as it was. -/
theorem serial_fd_is_last_tcsetattr (env : InitEnv) (s : State)
    (calls : List (Int × Int × Ptr × Int)) (hne : calls ≠ [])
    (fd : Int) (buf : Ptr) (count : Nat) (ret : Int) (mem : List Byte)
    (send_ret : Fin MAX_CLIENTS → Int) :
    (∀ s1 started, init_tcpserial_hook env s = InitResult.returned s1 started →
      s1.serial_fd = -1) ∧
    (run_tcsetattr s calls).serial_fd = (calls.getLast hne).1 ∧
    (read s fd buf count ret mem send_ret).2.serial_fd = s.serial_fd ∧
    (write s fd buf count ret mem send_ret).2.serial_fd = s.serial_fd := by
  refine ⟨?_, ?_, ?_, ?_⟩
  · intro s1 started h
    unfold init_tcpserial_hook at h
    simp only at h
    split_ifs at h
    injection h with h1 _
    rw [← h1, init_output_serial]
  · conv_lhs => rw [← List.dropLast_append_getLast hne]
    rw [run_tcsetattr_append]
    rfl
  · rw [read_unfold]
    split_ifs
    · simp [broadcast_serial, State.log]
    · rfl
  · rw [write_unfold]
    split_ifs
    · simp [broadcast_serial, State.log]
    · rfl

theorem serial_fd_is_last_tcsetattr_witness :
    init_tcpserial_hook all_succeed zero_state =
      InitResult.returned ⟨-1, empty_table, []⟩ true ∧
    (run_tcsetattr zero_state [(5, 0, 64, 0), (7, 0, 64, -1)]).serial_fd = 7 :=
  ⟨by decide,
    (serial_fd_is_last_tcsetattr all_succeed zero_state [(5, 0, 64, 0), (7, 0, 64, -1)]
      (by decide) 5 0 4 4 [65, 66, 67, 68] (fun _ => 4)).2.1⟩

/-! ## Initialisation -/

/-- The constructor aborts exactly when a `dlsym` lookup yields `NULL` or one of
`socket`, `bind`, `setsockopt`, `listen` fails; the results of `pthread_create` and
`pthread_detach` play no part. -/
theorem init_aborts_iff (env : InitEnv) (s : State) :
    init_tcpserial_hook env s = InitResult.aborted ↔
      (env.dlsym_read = 0 ∨ env.dlsym_write = 0 ∨ env.dlsym_tcsetattr = 0) ∨
        env.socket_ret < 0 ∨ env.bind_ret < 0 ∨ env.setsockopt_ret < 0 ∨
        env.listen_ret < 0 := by
  unfold init_tcpserial_hook init_tcpserial_hook_output
  simp only
  split_ifs <;> simp_all

theorem get_empty_table (i : Fin MAX_CLIENTS) : empty_table.get i = -1 := by
  unfold empty_table
  exact Mathlib.Vector.get_replicate _ i

theorem init_fold_get (l : List (Fin MAX_CLIENTS)) (t : Table) (j : Fin MAX_CLIENTS) :
    (l.foldl (fun u i => u.set i (-1)) t).get j = if j ∈ l then -1 else t.get j := by
  induction l generalizing t with
  | nil => simp
  | cons i rest ih =>
    rw [List.foldl_cons, ih]
    by_cases hj : j ∈ rest
    · simp [hj]
    · by_cases hji : j = i
      · subst hji
        simp [hj, Mathlib.Vector.get_set_same]
      · have hij : i ≠ j := fun h => hji h.symm
        simp [hj, hji, Mathlib.Vector.get_set_of_ne hij]

/-- When the three lookups and the four socket calls succeed, the constructor returns
and leaves `-1` in `serial_fd` and in all eight client slots; the acceptor thread runs
exactly when `pthread_create` returned zero. -/
theorem init_returns_clean (env : InitEnv) (s : State)
    (hsym : env.dlsym_read ≠ 0 ∧ env.dlsym_write ≠ 0 ∧ env.dlsym_tcsetattr ≠ 0)
    (hsock : 0 ≤ env.socket_ret ∧ 0 ≤ env.bind_ret ∧ 0 ≤ env.setsockopt_ret ∧
      0 ≤ env.listen_ret) :
    init_tcpserial_hook env s =
      InitResult.returned { serial_fd := -1, client_fds := empty_table, trace := s.trace }
        (decide (env.pthread_create_ret = 0)) := by
  have htable : ∀ t : Table,
      (List.finRange MAX_CLIENTS).foldl (fun u i => u.set i (-1)) t = empty_table := by
    intro t
    apply Mathlib.Vector.ext
    intro j
    rw [init_fold_get, if_pos (List.mem_finRange j), get_empty_table]
  obtain ⟨h1, h2, h3⟩ := hsym
  obtain ⟨h4, h5, h6, h7⟩ := hsock
  unfold init_tcpserial_hook init_tcpserial_hook_output
  simp only [htable]
  have n4 : ¬ env.socket_ret < 0 := by omega
  have n5 : ¬ env.bind_ret < 0 := by omega
  have n6 : ¬ env.setsockopt_ret < 0 := by omega
  have n7 : ¬ env.listen_ret < 0 := by omega
  simp [h1, h2, h3, n4, n5, n6, n7]

/-- C8, at the failing input: every initialisation step succeeds except
`pthread_create`, which returns `EAGAIN`.  The constructor does not abort: it returns
with `serial_fd` and all eight client slots at `-1` and no acceptor thread running. -/
theorem init_returns_when_thread_start_fails :
    init_tcpserial_hook thread_start_fails zero_state =
      InitResult.returned ⟨-1, empty_table, []⟩ false := by
  decide

/-! ## The acceptor's scan-and-claim step -/

theorem claim_scan_cons (c : Int) (i : Fin MAX_CLIENTS) (rest : List (Fin MAX_CLIENTS))
    (t : Table) :
    claim_scan c (i :: rest) t =
      if t.get i = -1 then (true, t.set i c) else claim_scan c rest t := by
  simp only [claim_scan, compare_exchange]
  split_ifs <;> simp_all

/-- The scan either finds every visited slot occupied and changes nothing, or stops at
the first visited slot holding `-1` and stores the client there. -/
theorem claim_scan_spec (c : Int) (l : List (Fin MAX_CLIENTS)) (t : Table) :
    ((∀ k ∈ l, t.get k ≠ -1) ∧ claim_scan c l t = (false, t)) ∨
    ∃ pre i post, l = pre ++ i :: post ∧ (∀ k ∈ pre, t.get k ≠ -1) ∧ t.get i = -1 ∧
      claim_scan c l t = (true, t.set i c) := by
  induction l with
  | nil => exact Or.inl ⟨by simp, rfl⟩
  | cons i rest ih =>
    rw [claim_scan_cons]
    by_cases hi : t.get i = -1
    · right
      exact ⟨[], i, rest, rfl, by simp, hi, by rw [if_pos hi]⟩
    · rw [if_neg hi]
      rcases ih with ⟨h1, h2⟩ | ⟨pre, j, post, h1, h2, h3, h4⟩
      · left
        refine ⟨?_, h2⟩
        intro k hk
        rcases List.mem_cons.mp hk with rfl | hk
        · exact hi
        · exact h1 k hk
      · right
        refine ⟨i :: pre, j, post, by rw [h1]; rfl, ?_, h3, h4⟩
        intro k hk
        rcases List.mem_cons.mp hk with rfl | hk
        · exact hi
        · exact h2 k hk

theorem before_in_finRange (pre post : List (Fin MAX_CLIENTS)) (i j : Fin MAX_CLIENTS)
    (h : List.finRange MAX_CLIENTS = pre ++ i :: post) (hj : j < i) : j ∈ pre := by
  have hmem : j ∈ pre ++ i :: post := h ▸ List.mem_finRange j
  have hsorted : List.Pairwise (· < ·) (pre ++ i :: post) :=
    h ▸ List.pairwise_lt_finRange MAX_CLIENTS
  rcases List.mem_append.mp hmem with hp | hp
  · exact hp
  · exfalso
    rcases List.mem_cons.mp hp with rfl | hp
    · exact lt_irrefl _ hj
    · have h2 := (List.pairwise_cons.mp (List.pairwise_append.mp hsorted).2.1).1 j hp
      exact lt_asymm hj h2

theorem listener_iteration_unfold (s : State) (c : Int) (hc : 0 ≤ c) :
    listener_iteration s c =
      if (claim_scan c (List.finRange MAX_CLIENTS) s.client_fds).1 then
        { serial_fd := s.serial_fd
          client_fds := (claim_scan c (List.finRange MAX_CLIENTS) s.client_fds).2
          trace := s.trace ++ [Event.accept c] }
      else
        { serial_fd := s.serial_fd
          client_fds := (claim_scan c (List.finRange MAX_CLIENTS) s.client_fds).2
          trace := s.trace ++ [Event.accept c, Event.close c] } := by
  have hn : ¬ c < 0 := by omega
  unfold listener_iteration
  simp only [State.log, if_neg hn]
  split_ifs <;> simp

/-- The acceptor's turn for a client `c ≥ 0`, in full: either some slot is empty, the
lowest-indexed empty slot receives `c` and the only call issued is the accept; or no
slot is empty, the table is unchanged and `c` is closed right after the accept. -/
theorem listener_iteration_spec (s : State) (c : Int) (hc : 0 ≤ c) :
    (∃ i, s.client_fds.get i = -1 ∧ (∀ j, j < i → s.client_fds.get j ≠ -1) ∧
        listener_iteration s c =
          { serial_fd := s.serial_fd, client_fds := s.client_fds.set i c,
            trace := s.trace ++ [Event.accept c] }) ∨
    ((∀ i, s.client_fds.get i ≠ -1) ∧
        listener_iteration s c =
          { serial_fd := s.serial_fd, client_fds := s.client_fds,
            trace := s.trace ++ [Event.accept c, Event.close c] }) := by
  rw [listener_iteration_unfold s c hc]
  rcases claim_scan_spec c (List.finRange MAX_CLIENTS) s.client_fds with
    ⟨h1, h2⟩ | ⟨pre, i, post, h1, h2, h3, h4⟩
  · right
    refine ⟨fun i => h1 i (List.mem_finRange i), ?_⟩
    rw [h2]
    simp
  · left
    refine ⟨i, h3, fun j hj => h2 j (before_in_finRange pre post i j h1 hj), ?_⟩
    rw [h4]
    simp

/-- C6: for every client table and every accepted descriptor `c ≥ 0`: if some slot is
empty (`-1`), then `c` is written into the lowest-indexed empty slot, every other slot
is unchanged and `c` is not closed (the accept is the only call issued); if no slot is
empty, the table is unchanged and `c` is closed exactly once.  In both cases a slot
that was not empty keeps its content. -/
theorem acceptor_claims_lowest_empty_or_closes (s : State) (c : Int) (hc : 0 ≤ c) :
    ((∃ i, s.client_fds.get i = -1) →
      ∃ i, s.client_fds.get i = -1 ∧ (∀ j, j < i → s.client_fds.get j ≠ -1) ∧
        (listener_iteration s c).client_fds = s.client_fds.set i c ∧
        (∀ j, j ≠ i → (listener_iteration s c).client_fds.get j = s.client_fds.get j) ∧
        issued_since s (listener_iteration s c) = [Event.accept c] ∧
        close_count c (issued_since s (listener_iteration s c)) = 0) ∧
    ((∀ i, s.client_fds.get i ≠ -1) →
      (listener_iteration s c).client_fds = s.client_fds ∧
        issued_since s (listener_iteration s c) = [Event.accept c, Event.close c] ∧
        close_count c (issued_since s (listener_iteration s c)) = 1) ∧
    (∀ i, s.client_fds.get i ≠ -1 →
      (listener_iteration s c).client_fds.get i = s.client_fds.get i) := by
  rcases listener_iteration_spec s c hc with ⟨i, h1, h2, h3⟩ | ⟨h1, h2⟩
  · refine ⟨fun _ => ⟨i, h1, h2, ?_, ?_, ?_, ?_⟩, ?_, ?_⟩
    · rw [h3]
    · intro j hj
      rw [h3]
      exact Mathlib.Vector.get_set_of_ne (Ne.symm hj) _
    · rw [h3]
      simp [issued_since]
    · rw [h3]
      simp [issued_since, close_count]
    · intro hall
      exact absurd h1 (hall i)
    · intro j hj
      rw [h3]
      have hji : j ≠ i := by
        rintro rfl
        exact hj h1
      exact Mathlib.Vector.get_set_of_ne (Ne.symm hji) _
  · refine ⟨?_, fun _ => ⟨?_, ?_, ?_⟩, ?_⟩
    · rintro ⟨i, hi⟩
      exact absurd hi (h1 i)
    · rw [h2]
    · rw [h2]
      simp [issued_since]
    · rw [h2]
      simp [issued_since, close_count]
    · intro i _
      rw [h2]

theorem acceptor_claims_lowest_empty_or_closes_witness :
    (listener_iteration sample_state 12).client_fds =
      ⟨[9, 12, 10, -1, -1, -1, -1, -1], rfl⟩ ∧
    ∀ i, sample_table.get i ≠ -1 →
      (listener_iteration sample_state 12).client_fds.get i
        = sample_table.get i :=
  ⟨by decide,
    (acceptor_claims_lowest_empty_or_closes
      sample_state 12 (by decide)).2.2⟩

/-! ## One run of `broadcast`, slot by slot -/

theorem to_size_t_eq_iff (r : Int) (b : Nat) (hr : -(2 ^ 63) ≤ r ∧ r < 2 ^ 63)
    (hb : 1 ≤ b ∧ b ≤ 2 ^ 63 - 1) : to_size_t r = b ↔ r = (b : Int) := by
  unfold to_size_t
  have h64 : (2 : Int) ^ 64 = 18446744073709551616 := by norm_num
  have h63 : (2 : Int) ^ 63 = 9223372036854775808 := by norm_num
  have n63 : (2 : Nat) ^ 63 = 9223372036854775808 := by norm_num
  rw [h64]
  rw [h63] at hr
  rw [n63] at hb
  omega

theorem issued_since_append (s s1 : State) (es : List Event)
    (h : s1.trace = s.trace ++ es) : issued_since s s1 = es := by
  simp [issued_since, h]

theorem broadcast_issued (buffer : List Byte) (bytes : Nat)
    (send_ret : Fin MAX_CLIENTS → Int) (s : State) :
    issued_since s (broadcast buffer bytes send_ret s) =
      (List.finRange MAX_CLIENTS).flatMap (slot_events buffer bytes send_ret s.client_fds) :=
  issued_since_append _ _ _ (broadcast_trace buffer bytes send_ret s)

theorem close_count_slot_events (buffer : List Byte) (bytes : Nat)
    (send_ret : Fin MAX_CLIENTS → Int) (t : Table) (k : Fin MAX_CLIENTS) (d : Int) :
    close_count d (slot_events buffer bytes send_ret t k) =
      if 0 ≤ t.get k ∧ to_size_t (send_ret k) ≠ bytes ∧ t.get k = d then 1 else 0 := by
  unfold slot_events close_count
  by_cases h1 : 0 ≤ t.get k
  · by_cases h2 : to_size_t (send_ret k) = bytes
    · simp [h1, h2]
    · by_cases h3 : t.get k = d
      · subst h3
        simp [h1, h2, List.count_cons]
      · have h4 : ¬ (Event.close (t.get k) = Event.close d) := by
          intro h
          injection h with h
          exact h3 h
        simp [h1, h2, h3, List.count_cons, h4]
  · simp [h1]

theorem close_count_append (d : Int) (a b : List Event) :
    close_count d (a ++ b) = close_count d a + close_count d b := by
  simp [close_count]

/-- In a table without a shared descriptor, the closes of the descriptor of slot `i`
over a duplicate-free list of visited slots: one if `i` is visited and its send fell
short, none otherwise. -/
theorem close_count_visited (buffer : List Byte) (bytes : Nat)
    (send_ret : Fin MAX_CLIENTS → Int) (t : Table) (hd : distinct_descriptors t)
    (i : Fin MAX_CLIENTS) (hi : 0 ≤ t.get i) (l : List (Fin MAX_CLIENTS)) (hl : l.Nodup) :
    close_count (t.get i) (l.flatMap (slot_events buffer bytes send_ret t)) =
      if i ∈ l ∧ to_size_t (send_ret i) ≠ bytes then 1 else 0 := by
  induction l with
  | nil => simp [close_count]
  | cons k rest ih =>
    have hk : k ∉ rest := (List.nodup_cons.mp hl).1
    rw [List.flatMap_cons, close_count_append, ih (List.nodup_cons.mp hl).2,
      close_count_slot_events]
    by_cases hki : k = i
    · subst hki
      simp [hi, hk]
    · have hne : t.get k ≠ t.get i := fun h => hki ((hd i k hi h.symm).symm)
      have hik : i ≠ k := fun h => hki h.symm
      simp [hne, hik]

theorem sends_slot_events (buffer : List Byte) (bytes : Nat)
    (send_ret : Fin MAX_CLIENTS → Int) (t : Table) (l : List (Fin MAX_CLIENTS)) :
    sends (l.flatMap (slot_events buffer bytes send_ret t)) =
      (l.filter fun i => 0 ≤ t.get i).map
        fun i => Event.send (t.get i) (buffer.take bytes) bytes (send_ret i) := by
  induction l with
  | nil => rfl
  | cons k rest ih =>
    have happ : ∀ a b : List Event, sends (a ++ b) = sends a ++ sends b := by
      intro a b
      simp [sends]
    rw [List.flatMap_cons, happ, ih]
    unfold slot_events
    by_cases h1 : 0 ≤ t.get k
    · by_cases h2 : to_size_t (send_ret k) = bytes
      · simp [sends, h1, h2]
      · simp [sends, h1, h2]
    · simp [sends, h1]

/-- C5, as stated for every client table, fails on the table that holds descriptor 3
in slots 0 and 1, with the byte count `b = 1`.  When both sends return `-1`, both slots
end at `-1` but `close(3)` has been called twice, not once.  When the send for slot 0
returns `1` and the send for slot 1 returns `-1`, slot 0 is unchanged and still holds
3, yet descriptor 3 has been closed. -/
theorem broadcast_closes_shared_descriptor_twice :
    ((1 : Nat) ≤ 1 ∧ (1 : Nat) ≤ 2 ^ 63 - 1) ∧
    ssize_range all_sends_fail ∧ ssize_range only_slot0_sends ∧
    shared_state.client_fds.get 0 = 3 ∧ shared_state.client_fds.get 1 = 3 ∧
    (all_sends_fail 0 ≠ 1 ∧
      issued_since shared_state (broadcast [88] 1 all_sends_fail shared_state) =
        [Event.send 3 [88] 1 (-1), Event.close 3, Event.send 3 [88] 1 (-1),
          Event.close 3] ∧
      (broadcast [88] 1 all_sends_fail shared_state).client_fds.get 0 = -1 ∧
      close_count 3
        (issued_since shared_state (broadcast [88] 1 all_sends_fail shared_state)) = 2) ∧
    (only_slot0_sends 0 = 1 ∧
      issued_since shared_state (broadcast [88] 1 only_slot0_sends shared_state) =
        [Event.send 3 [88] 1 1, Event.send 3 [88] 1 (-1), Event.close 3] ∧
      (broadcast [88] 1 only_slot0_sends shared_state).client_fds.get 0 = 3 ∧
      close_count 3
        (issued_since shared_state (broadcast [88] 1 only_slot0_sends shared_state)) = 1) :=
  ⟨by decide, by decide, by decide, rfl, rfl, ⟨by decide, rfl, rfl, rfl⟩,
    ⟨rfl, rfl, rfl, rfl⟩⟩

/-- C5, amended: for every client table, every byte count `1 ≤ b ≤ 2^63 - 1` and all
`ssize_t` send results, one uninterrupted run of `broadcast` issues, slot after slot,
exactly the calls of `slot_events`: one send per occupied slot (with the first `b`
bytes of the buffer) followed by one close of the slot's descriptor if the send fell
short, and nothing for any other slot.  Afterwards a slot whose send returned exactly
`b` is unchanged, a slot whose send returned any other value holds `-1`, and an empty
slot is still empty.  If no descriptor occupies two slots of the table, then moreover
the descriptor of a slot whose send returned `b` has not been closed at all during the
run, and the descriptor of a slot whose send returned any other value has been closed
exactly once. -/
theorem broadcast_one_send_per_slot_and_eviction (s : State) (buffer : List Byte)
    (b : Nat) (send_ret : Fin MAX_CLIENTS → Int)
    (hb : 1 ≤ b ∧ b ≤ 2 ^ 63 - 1) (hr : ssize_range send_ret) :
    issued_since s (broadcast buffer b send_ret s) =
      (List.finRange MAX_CLIENTS).flatMap (slot_events buffer b send_ret s.client_fds) ∧
    sends (issued_since s (broadcast buffer b send_ret s)) =
      ((List.finRange MAX_CLIENTS).filter fun i => 0 ≤ s.client_fds.get i).map
        (fun i => Event.send (s.client_fds.get i) (buffer.take b) b (send_ret i)) ∧
    (∀ i : Fin MAX_CLIENTS,
      (0 ≤ s.client_fds.get i → send_ret i = (b : Int) →
        (broadcast buffer b send_ret s).client_fds.get i = s.client_fds.get i) ∧
      (0 ≤ s.client_fds.get i → send_ret i ≠ (b : Int) →
        (broadcast buffer b send_ret s).client_fds.get i = -1) ∧
      (s.client_fds.get i = -1 →
        (broadcast buffer b send_ret s).client_fds.get i = -1)) ∧
    (distinct_descriptors s.client_fds → ∀ i : Fin MAX_CLIENTS, 0 ≤ s.client_fds.get i →
      (send_ret i = (b : Int) →
        close_count (s.client_fds.get i)
          (issued_since s (broadcast buffer b send_ret s)) = 0) ∧
      (send_ret i ≠ (b : Int) →
        close_count (s.client_fds.get i)
          (issued_since s (broadcast buffer b send_ret s)) = 1)) := by
  have hiff := fun i => to_size_t_eq_iff (send_ret i) b (hr i) hb
  refine ⟨broadcast_issued buffer b send_ret s, ?_, ?_, ?_⟩
  · rw [broadcast_issued, sends_slot_events]
  · intro i
    refine ⟨?_, ?_, ?_⟩
    · intro _ hfull
      have hs : to_size_t (send_ret i) = b := (hiff i).mpr hfull
      rw [broadcast_get]
      simp [hs]
    · intro h0 hshort
      have hs : to_size_t (send_ret i) ≠ b := fun h => hshort ((hiff i).mp h)
      rw [broadcast_get]
      simp [hs, h0]
    · intro he
      rw [broadcast_get, he]
      simp
  · intro hd i h0
    rw [broadcast_issued,
      close_count_visited buffer b send_ret s.client_fds hd i h0 _ (List.nodup_finRange _)]
    constructor
    · intro hfull
      have hs : to_size_t (send_ret i) = b := (hiff i).mpr hfull
      simp [hs]
    · intro hshort
      have hs : to_size_t (send_ret i) ≠ b := fun h => hshort ((hiff i).mp h)
      simp [hs, List.mem_finRange]

theorem broadcast_one_send_per_slot_and_eviction_witness :
    (broadcast [88, 89] 2 only_slot0_keeps_up sample_state).client_fds.get 0 = 9 ∧
    (broadcast [88, 89] 2 only_slot0_keeps_up sample_state).client_fds.get 2 = -1 ∧
    close_count 9
      (issued_since sample_state (broadcast [88, 89] 2 only_slot0_keeps_up sample_state))
      = 0 ∧
    close_count 10
      (issued_since sample_state (broadcast [88, 89] 2 only_slot0_keeps_up sample_state))
      = 1 :=
  have h := broadcast_one_send_per_slot_and_eviction sample_state [88, 89] 2
    only_slot0_keeps_up (by decide) (by decide)
  ⟨((h.2.2.1 0).1 (by decide) (by decide)), ((h.2.2.1 2).2.1 (by decide) (by decide)),
    (h.2.2.2 (by decide) 0 (by decide)).1 (by decide),
    (h.2.2.2 (by decide) 2 (by decide)).2 (by decide)⟩

/-! ## What an observer receives -/

theorem to_size_t_pos (r : Int) (h0 : 0 < r) (h1 : r < 2 ^ 63) :
    to_size_t r = r.toNat := by
  unfold to_size_t
  have h64 : (2 : Int) ^ 64 = 18446744073709551616 := by norm_num
  have h63 : (2 : Int) ^ 63 = 9223372036854775808 := by norm_num
  rw [h64]
  rw [h63] at h1
  omega

theorem delivered_append (o : Int) (a b : List Event) :
    delivered o (a ++ b) = delivered o a ++ delivered o b := by
  induction a with
  | nil => rfl
  | cons e rest ih =>
    cases e with
    | send fd data bytes ret =>
      simp only [List.cons_append, delivered]
      split_ifs <;> simp [ih]
    | _ => simpa [delivered] using ih

/-- What the observer held only by slot `j` receives from one pass of the loop over a
duplicate-free list of slots, when the send for slot `j` returns the full count. -/
theorem delivered_visited (mem : List Byte) (ret : Int) (send_ret : Fin MAX_CLIENTS → Int)
    (t : Table) (j : Fin MAX_CLIENTS) (ho : 0 ≤ t.get j)
    (huniq : ∀ k, t.get k = t.get j → k = j) (hfull : send_ret j = ret)
    (l : List (Fin MAX_CLIENTS)) (hl : l.Nodup) :
    delivered (t.get j) (l.flatMap (slot_events mem ret.toNat send_ret t)) =
      if j ∈ l then mem.take ret.toNat else [] := by
  induction l with
  | nil => rfl
  | cons k rest ih =>
    have hk : k ∉ rest := (List.nodup_cons.mp hl).1
    rw [List.flatMap_cons, delivered_append, ih (List.nodup_cons.mp hl).2]
    by_cases hkj : k = j
    · subst hkj
      have hsend : delivered (t.get k) (slot_events mem ret.toNat send_ret t k) =
          mem.take ret.toNat := by
        unfold slot_events
        rw [if_pos ho, hfull]
        split_ifs <;> simp [delivered, List.take_take]
      rw [hsend]
      simp [hk]
    · have hne : t.get k ≠ t.get j := fun h => hkj (huniq k h)
      have hsend : delivered (t.get j) (slot_events mem ret.toNat send_ret t k) = [] := by
        unfold slot_events
        split_ifs <;> simp [delivered, hne]
      have hjk : j ≠ k := fun h => hkj h.symm
      rw [hsend]
      simp [hjk]

/-- One broadcasting call, seen from the observer in slot `j`: it receives the first
`ret` bytes of the buffer and keeps its slot, which stays the only one holding it. -/
theorem broadcast_to_observer (s : State) (mem : List Byte) (ret : Int)
    (send_ret : Fin MAX_CLIENTS → Int) (j : Fin MAX_CLIENTS)
    (ho : 0 ≤ s.client_fds.get j) (huniq : ∀ k, s.client_fds.get k = s.client_fds.get j → k = j)
    (h0 : 0 < ret) (h1 : ret < 2 ^ 63) (hfull : send_ret j = ret) :
    delivered (s.client_fds.get j) (broadcast mem (to_size_t ret) send_ret s).trace =
      delivered (s.client_fds.get j) s.trace ++ mem.take ret.toNat ∧
    (broadcast mem (to_size_t ret) send_ret s).client_fds.get j = s.client_fds.get j ∧
    ∀ k, (broadcast mem (to_size_t ret) send_ret s).client_fds.get k = s.client_fds.get j →
      k = j := by
  have hsz : to_size_t ret = ret.toNat := to_size_t_pos ret h0 h1
  refine ⟨?_, ?_, ?_⟩
  · rw [broadcast_trace, delivered_append, hsz,
      delivered_visited mem ret send_ret s.client_fds j ho huniq hfull _
        (List.nodup_finRange _)]
    simp [List.mem_finRange]
  · rw [broadcast_get, hfull]
    simp
  · intro k hk
    rw [broadcast_get] at hk
    split_ifs at hk with hc
    · omega
    · exact huniq k hk

theorem in_range_tail (c : Call) (cs : List Call) (h : ∀ x ∈ c :: cs, x.in_range) :
    c.in_range ∧ ∀ x ∈ cs, x.in_range :=
  ⟨h c (List.mem_cons_self c cs), fun x hx => h x (List.mem_cons_of_mem c hx)⟩

theorem delivered_log (o : Int) (s : State) (e : Event) (h : delivered o [e] = []) :
    delivered o (s.log e).trace = delivered o s.trace := by
  simp [State.log, delivered_append, h]

/-- One call, seen from the observer in slot `j`. -/
theorem call_to_observer (s : State) (c : Call) (o : Int) (j : Fin MAX_CLIENTS)
    (hj : s.client_fds.get j = o) (ho : 0 ≤ o) (huniq : ∀ k, s.client_fds.get k = o → k = j)
    (hrange : c.in_range) (hfull : c.full_at j s.serial_fd) :
    delivered o (c.run s).trace = delivered o s.trace ++ c.transferred s.serial_fd ∧
    (c.run s).client_fds.get j = o ∧
    ∀ k, (c.run s).client_fds.get k = o → k = j := by
  subst hj
  cases c with
  | read fd buf count ret mem send_ret =>
    have hlog := delivered_log (s.client_fds.get j) s (Event.real_read fd buf count) rfl
    show delivered _ (read s fd buf count ret mem send_ret).2.trace = _ ∧
      (read s fd buf count ret mem send_ret).2.client_fds.get j = _ ∧
      ∀ k, (read s fd buf count ret mem send_ret).2.client_fds.get k = _ → k = j
    rw [read_unfold]
    by_cases hc : 0 < ret ∧ fd = s.serial_fd
    · have hb := broadcast_to_observer (s.log (Event.real_read fd buf count)) mem ret
        send_ret j ho huniq hc.1 hrange.2 (hfull hc)
      rw [if_pos hc]
      refine ⟨?_, hb.2.1, hb.2.2⟩
      rw [Call.transferred, if_pos hc, ← hlog]
      exact hb.1
    · rw [if_neg hc]
      refine ⟨?_, rfl, huniq⟩
      rw [Call.transferred, if_neg hc, List.append_nil]
      exact hlog
  | write fd buf count ret mem send_ret =>
    have hlog := delivered_log (s.client_fds.get j) s (Event.real_write fd buf count) rfl
    show delivered _ (write s fd buf count ret mem send_ret).2.trace = _ ∧
      (write s fd buf count ret mem send_ret).2.client_fds.get j = _ ∧
      ∀ k, (write s fd buf count ret mem send_ret).2.client_fds.get k = _ → k = j
    rw [write_unfold]
    by_cases hc : 0 < ret ∧ fd = s.serial_fd
    · have hb := broadcast_to_observer (s.log (Event.real_write fd buf count)) mem ret
        send_ret j ho huniq hc.1 hrange.2 (hfull hc)
      rw [if_pos hc]
      refine ⟨?_, hb.2.1, hb.2.2⟩
      rw [Call.transferred, if_pos hc, ← hlog]
      exact hb.1
    · rw [if_neg hc]
      refine ⟨?_, rfl, huniq⟩
      rw [Call.transferred, if_neg hc, List.append_nil]
      exact hlog
  | tcsetattr fd optional_actions termios_p ret =>
    have hlog := delivered_log (s.client_fds.get j) { s with serial_fd := fd }
      (Event.real_tcsetattr fd optional_actions termios_p) rfl
    refine ⟨?_, rfl, huniq⟩
    rw [Call.transferred, List.append_nil]
    exact hlog

/-- C3: for every sequence of hooked `read`/`write`/`tcsetattr` calls run one after
another, an observer that occupies slot `j` (and no other slot) and whose sends all
return the full count still occupies the slot at the end, and the bytes sent to it
during the sequence are exactly the concatenation, in call order, of the first `n`
bytes of the buffer of each read or write whose real result `n` is positive and whose
descriptor equals `serial_fd` at that call; nothing is added before, between or
after. -/
theorem observer_stream_is_exact_mirror (cs : List Call) (s : State) (o : Int)
    (j : Fin MAX_CLIENTS) (hj : s.client_fds.get j = o) (ho : 0 ≤ o)
    (huniq : ∀ k, s.client_fds.get k = o → k = j)
    (hrange : ∀ c ∈ cs, c.in_range) (hfull : sends_complete j s cs) :
    delivered o (run_calls s cs).trace = delivered o s.trace ++ mirror_stream s cs ∧
    (run_calls s cs).client_fds.get j = o := by
  induction cs generalizing s with
  | nil => simp [run_calls, mirror_stream, hj]
  | cons c rest ih =>
    obtain ⟨hc, hrest⟩ := in_range_tail c rest hrange
    obtain ⟨hf1, hf2⟩ := hfull
    obtain ⟨h1, h2, h3⟩ := call_to_observer s c o j hj ho huniq hc hf1
    obtain ⟨h4, h5⟩ := ih (c.run s) h2 h3 hrest hf2
    refine ⟨?_, ?_⟩
    · show delivered o (run_calls (c.run s) rest).trace = _
      rw [h4, h1, mirror_stream, List.append_assoc]
    · exact h5

theorem observer_stream_is_exact_mirror_witness :
    delivered 9 (run_calls one_observer configure_then_write).trace = [65, 66, 67, 68] :=
  (observer_stream_is_exact_mirror configure_then_write one_observer 9 0 rfl (by decide)
    (by decide) (by simp [configure_then_write, Call.in_range])
    (by simp [configure_then_write, sends_complete, Call.full_at])).1.trans rfl

/-! ## The invariant of the client table -/

theorem open_fds_append (a b : List Event) :
    open_fds (a ++ b) = b.foldl open_step (open_fds a) := by
  simp [open_fds, List.foldl_append]

/-- A descriptor stays open across calls none of which closes it. -/
theorem open_survives (d : Int) (es : List Event) (o : List Int) (hd : d ∈ o)
    (hes : Event.close d ∉ es) : d ∈ es.foldl open_step o := by
  induction es generalizing o with
  | nil => exact hd
  | cons e rest ih =>
    have hrest : Event.close d ∉ rest := fun h => hes (List.mem_cons_of_mem e h)
    have he : e ≠ Event.close d := fun h => hes (h ▸ List.mem_cons_self e rest)
    apply ih _ _ hrest
    cases e with
    | accept c =>
      simp only [open_step]
      split_ifs
      · exact List.mem_cons_of_mem c hd
      · exact hd
    | close c =>
      simp only [open_step]
      have hcd : d ≠ c := by
        rintro rfl
        exact he rfl
      simp [hd, hcd]
    | _ => exact hd

/-- A table that satisfies the invariant has no descriptor in two slots. -/
theorem distinct_of_invariant (s : State) (h : table_invariant s) :
    distinct_descriptors s.client_fds := by
  intro i j hi hij
  apply h.2 i j hij
  omega

theorem table_invariant_accept (s : State) (c : Int) (h : table_invariant s)
    (hfresh : 0 ≤ c → c ∉ open_fds s.trace) :
    table_invariant (listener_iteration s c) := by
  obtain ⟨h1, h2⟩ := h
  by_cases hc : 0 ≤ c
  · have hnew : c ∉ open_fds s.trace := hfresh hc
    have hslot : ∀ k, s.client_fds.get k ≠ c := by
      intro k hk
      rcases h1 k with he | ⟨_, _, ho⟩
      · omega
      · exact hnew (hk ▸ ho)
    rcases listener_iteration_spec s c hc with ⟨i, _, _, h5⟩ | ⟨_, h4⟩
    · rw [h5]
      constructor
      · intro k
        show (s.client_fds.set i c).get k = -1 ∨ _
        by_cases hki : k = i
        · subst hki
          right
          rw [Mathlib.Vector.get_set_same]
          refine ⟨hc, by simp, ?_⟩
          show c ∈ open_fds (s.trace ++ [Event.accept c])
          rw [open_fds_append]
          simp [open_step, hc]
        · rw [Mathlib.Vector.get_set_of_ne (Ne.symm hki)]
          rcases h1 k with he | ⟨ha, hb, ho⟩
          · exact Or.inl he
          · right
            refine ⟨ha, List.mem_append_left _ hb, ?_⟩
            show s.client_fds.get k ∈ open_fds (s.trace ++ [Event.accept c])
            rw [open_fds_append]
            exact open_survives _ _ _ ho (by simp)
      · intro a b hab hne
        show a = b
        have hab2 : (s.client_fds.set i c).get a = (s.client_fds.set i c).get b := hab
        have hne2 : (s.client_fds.set i c).get a ≠ -1 := hne
        by_cases hai : a = i
        · by_cases hbi : b = i
          · rw [hai, hbi]
          · rw [hai, Mathlib.Vector.get_set_same,
              Mathlib.Vector.get_set_of_ne (Ne.symm hbi)] at hab2
            exact absurd hab2.symm (hslot b)
        · by_cases hbi : b = i
          · rw [hbi, Mathlib.Vector.get_set_same,
              Mathlib.Vector.get_set_of_ne (Ne.symm hai)] at hab2
            exact absurd hab2 (hslot a)
          · rw [Mathlib.Vector.get_set_of_ne (Ne.symm hai),
              Mathlib.Vector.get_set_of_ne (Ne.symm hbi)] at hab2
            rw [Mathlib.Vector.get_set_of_ne (Ne.symm hai)] at hne2
            exact h2 a b hab2 hne2
    · rw [h4]
      refine ⟨?_, h2⟩
      intro k
      rcases h1 k with he | ⟨ha, hb, ho⟩
      · exact Or.inl he
      · right
        refine ⟨ha, List.mem_append_left _ hb, ?_⟩
        show s.client_fds.get k ∈ open_fds (s.trace ++ [Event.accept c, Event.close c])
        rw [open_fds_append]
        have hkc : s.client_fds.get k ≠ c := hslot k
        simp [open_step, hc, ho, hkc]
  · have hneg : c < 0 := by omega
    have hstate : listener_iteration s c = s.log (Event.accept c) := by
      unfold listener_iteration
      simp [hneg]
    rw [hstate]
    refine ⟨?_, h2⟩
    intro k
    rcases h1 k with he | ⟨ha, hb, ho⟩
    · exact Or.inl he
    · right
      refine ⟨ha, List.mem_append_left _ hb, ?_⟩
      show s.client_fds.get k ∈ open_fds (s.trace ++ [Event.accept c])
      rw [open_fds_append]
      exact open_survives _ _ _ ho (by simp)

theorem table_invariant_broadcast (s : State) (buffer : List Byte) (bytes : Nat)
    (send_ret : Fin MAX_CLIENTS → Int) (h : table_invariant s) :
    table_invariant (broadcast buffer bytes send_ret s) := by
  have hd := distinct_of_invariant s h
  obtain ⟨h1, h2⟩ := h
  constructor
  · intro k
    rw [broadcast_get]
    by_cases hev : 0 ≤ s.client_fds.get k ∧ to_size_t (send_ret k) ≠ bytes
    · left
      rw [if_pos hev]
    · rw [if_neg hev]
      rcases h1 k with he | ⟨ha, hb, ho⟩
      · exact Or.inl he
      · right
        refine ⟨ha, ?_, ?_⟩
        · rw [broadcast_trace]
          exact List.mem_append_left _ hb
        · rw [broadcast_trace, open_fds_append]
          apply open_survives _ _ _ ho
          have hcount := close_count_visited buffer bytes send_ret s.client_fds hd k ha
            (List.finRange MAX_CLIENTS) (List.nodup_finRange _)
          have hfull : to_size_t (send_ret k) = bytes := by
            by_contra hne
            exact hev ⟨ha, hne⟩
          rw [if_neg (by simp [hfull])] at hcount
          exact List.count_eq_zero.mp hcount
  · intro a b hab hne
    rw [broadcast_get] at hab hne
    rw [broadcast_get] at hab
    split_ifs at hab hne with ha hb hb
    · exact absurd rfl hne
    · exact absurd rfl hne
    · exact absurd hab hne
    · exact h2 a b hab hne

theorem run_steps_cons (s : State) (st : Step) (rest : List Step) :
    run_steps s (st :: rest) = run_steps (st.run s) rest := rfl

theorem accepts_fresh_cons (s : State) (st : Step) (rest : List Step) :
    accepts_fresh s (st :: rest) ↔ st.fresh s ∧ accepts_fresh (st.run s) rest :=
  Iff.rfl

theorem table_invariant_log (u : State) (e : Event) (he : e.is_real_call = true)
    (hu : table_invariant u) : table_invariant (u.log e) := by
  refine ⟨?_, hu.2⟩
  intro k
  rcases hu.1 k with h1 | ⟨ha, hb, ho⟩
  · exact Or.inl h1
  · right
    refine ⟨ha, List.mem_append_left _ hb, ?_⟩
    show u.client_fds.get k ∈ open_fds (u.trace ++ [e])
    rw [open_fds_append]
    cases e <;> first | exact ho | simp [Event.is_real_call] at he

theorem table_invariant_call (s : State) (c : Call) (h : table_invariant s) :
    table_invariant (c.run s) := by
  have hlog := table_invariant_log
  cases c with
  | read fd buf count ret mem send_ret =>
    show table_invariant (read s fd buf count ret mem send_ret).2
    have h1 := hlog s (Event.real_read fd buf count) rfl h
    rw [read_state]
    split_ifs
    · exact table_invariant_broadcast (s.log (Event.real_read fd buf count)) mem
        (to_size_t ret) send_ret h1
    · exact h1
  | write fd buf count ret mem send_ret =>
    show table_invariant (write s fd buf count ret mem send_ret).2
    have h1 := hlog s (Event.real_write fd buf count) rfl h
    rw [write_state]
    split_ifs
    · exact table_invariant_broadcast (s.log (Event.real_write fd buf count)) mem
        (to_size_t ret) send_ret h1
    · exact h1
  | tcsetattr fd optional_actions termios_p ret =>
    exact hlog { s with serial_fd := fd }
      (Event.real_tcsetattr fd optional_actions termios_p) rfl h

theorem table_invariant_step (s : State) (st : Step) (h : table_invariant s)
    (hfresh : st.fresh s) : table_invariant (st.run s) := by
  cases st with
  | accept c => exact table_invariant_accept s c h hfresh
  | broadcast buffer bytes send_ret =>
    exact table_invariant_broadcast s buffer bytes send_ret h
  | call c => exact table_invariant_call s c h

theorem table_invariant_empty (s : State) (hinit : s.client_fds = empty_table) :
    table_invariant s := by
  constructor
  · intro i
    left
    rw [hinit]
    exact get_empty_table i
  · intro i j _ hne
    rw [hinit] at hne
    exact absurd (get_empty_table i) hne

/-- C9: starting from a table whose eight slots all hold `-1`, after every finite
sequence of acceptor turns and `broadcast` runs (hooked calls may be mixed in) in which
each successful accept returns a descriptor that is not open at that moment, every slot
holds `-1` or a non-negative descriptor that an accept returned and that has not been
closed since, and no descriptor occupies two slots. -/
theorem table_invariant_holds (steps : List Step) (s : State)
    (hinit : s.client_fds = empty_table) (hfresh : accepts_fresh s steps) :
    table_invariant (run_steps s steps) := by
  have hstart : table_invariant s := table_invariant_empty s hinit
  clear hinit
  induction steps generalizing s with
  | nil => exact hstart
  | cons st rest ih =>
    rw [run_steps_cons]
    rw [accepts_fresh_cons] at hfresh
    exact ih _ hfresh.2 (table_invariant_step s st hstart hfresh.1)

theorem table_invariant_holds_witness :
    (run_steps booted connect_evict_reconnect).client_fds =
      ⟨[9, 10, -1, -1, -1, -1, -1, -1], rfl⟩ ∧
    table_invariant (run_steps booted connect_evict_reconnect) :=
  ⟨rfl, table_invariant_holds connect_evict_reconnect booted rfl
    ⟨by decide, by decide, trivial, by decide, trivial⟩⟩

/-! ## No accepted connection is leaked or closed twice -/

theorem accept_count_append (d : Int) (a b : List Event) :
    accept_count d (a ++ b) = accept_count d a + accept_count d b := by
  simp [accept_count]

theorem accept_count_slot_events (buffer : List Byte) (bytes : Nat)
    (send_ret : Fin MAX_CLIENTS → Int) (t : Table) (d : Int) (l : List (Fin MAX_CLIENTS)) :
    accept_count d (l.flatMap (slot_events buffer bytes send_ret t)) = 0 := by
  induction l with
  | nil => rfl
  | cons k rest ih =>
    rw [List.flatMap_cons, accept_count_append, ih]
    unfold slot_events accept_count
    split_ifs <;> simp [List.count_cons]

theorem close_count_absent (buffer : List Byte) (bytes : Nat)
    (send_ret : Fin MAX_CLIENTS → Int) (t : Table) (d : Int) (hd : ∀ k, t.get k ≠ d)
    (l : List (Fin MAX_CLIENTS)) :
    close_count d (l.flatMap (slot_events buffer bytes send_ret t)) = 0 := by
  induction l with
  | nil => rfl
  | cons k rest ih =>
    rw [List.flatMap_cons, close_count_append, ih, close_count_slot_events]
    simp [hd k]

/-- A state with the same table and the same numbers of accepts and closes is balanced
as well. -/
theorem balanced_of_same (s u : State) (ht : u.client_fds = s.client_fds)
    (ha : ∀ d, 0 ≤ d → accept_count d u.trace = accept_count d s.trace)
    (hc : ∀ d, 0 ≤ d → close_count d u.trace = close_count d s.trace) (h : balanced s) :
    balanced u := by
  intro d hd
  rw [ha d hd, hc d hd, ht]
  exact h d hd

theorem balanced_log (s : State) (e : Event) (he : e.is_real_call = true)
    (h : balanced s) : balanced (s.log e) := by
  apply balanced_of_same s (s.log e) rfl _ _ h
  · intro d _
    show accept_count d (s.trace ++ [e]) = _
    rw [accept_count_append]
    cases e <;> first | rfl | simp [Event.is_real_call] at he
  · intro d _
    show close_count d (s.trace ++ [e]) = _
    rw [close_count_append]
    cases e <;> first | rfl | simp [Event.is_real_call] at he

theorem accept_count_single (d c : Int) :
    accept_count d [Event.accept c] = if c = d then 1 else 0 := by
  unfold accept_count
  by_cases h : c = d
  · subst h
    simp
  · have h2 : ¬ (Event.accept c = Event.accept d) := by
      intro h3
      injection h3 with h3
      exact h h3
    simp [List.count_cons, h, h2]

theorem close_count_single (d c : Int) :
    close_count d [Event.close c] = if c = d then 1 else 0 := by
  unfold close_count
  by_cases h : c = d
  · subst h
    simp
  · have h2 : ¬ (Event.close c = Event.close d) := by
      intro h3
      injection h3 with h3
      exact h h3
    simp [List.count_cons, h, h2]

theorem balanced_broadcast (s : State) (buffer : List Byte) (bytes : Nat)
    (send_ret : Fin MAX_CLIENTS → Int) (hi : table_invariant s) (h : balanced s) :
    balanced (broadcast buffer bytes send_ret s) := by
  have hdist := distinct_of_invariant s hi
  intro d hd
  rw [broadcast_trace, accept_count_append, close_count_append, accept_count_slot_events,
    Nat.add_zero]
  rcases h d hd with ⟨hbal, k, hk⟩ | ⟨hbal, hno⟩
  · subst hk
    rw [close_count_visited buffer bytes send_ret s.client_fds hdist k hd _
      (List.nodup_finRange _)]
    by_cases hshort : to_size_t (send_ret k) ≠ bytes
    · right
      rw [if_pos ⟨List.mem_finRange k, hshort⟩]
      refine ⟨by omega, ?_⟩
      intro j hj
      rw [broadcast_get] at hj
      split_ifs at hj with hev
      · omega
      · have hjk : k = j := hdist k j hd hj.symm
        subst hjk
        exact hev ⟨hd, hshort⟩
    · left
      rw [if_neg (fun hc => hshort hc.2)]
      refine ⟨by omega, k, ?_⟩
      rw [broadcast_get, if_neg (fun hc => hshort hc.2)]
  · right
    rw [close_count_absent buffer bytes send_ret s.client_fds d hno]
    refine ⟨by omega, ?_⟩
    intro j hj
    rw [broadcast_get] at hj
    split_ifs at hj
    · omega
    · exact hno j hj

theorem balanced_accept (s : State) (c : Int) (hi : table_invariant s) (h : balanced s)
    (hfresh : 0 ≤ c → c ∉ open_fds s.trace) : balanced (listener_iteration s c) := by
  by_cases hc : 0 ≤ c
  · have hslot : ∀ k, s.client_fds.get k ≠ c := by
      intro k hk
      rcases hi.1 k with he | ⟨_, _, ho⟩
      · omega
      · exact hfresh hc (hk ▸ ho)
    have hcbal : accept_count c s.trace = close_count c s.trace := by
      rcases h c hc with ⟨_, k, hk⟩ | ⟨hb, _⟩
      · exact absurd hk (hslot k)
      · exact hb
    rcases listener_iteration_spec s c hc with ⟨i, hempty, _, h5⟩ | ⟨_, h4⟩
    · rw [h5]
      intro d hd
      show (accept_count d (s.trace ++ [Event.accept c]) =
          close_count d (s.trace ++ [Event.accept c]) + 1 ∧
          ∃ k, (s.client_fds.set i c).get k = d) ∨
        (accept_count d (s.trace ++ [Event.accept c]) =
          close_count d (s.trace ++ [Event.accept c]) ∧
          ∀ k, (s.client_fds.set i c).get k ≠ d)
      rw [accept_count_append, close_count_append, accept_count_single]
      have hcl : close_count d [Event.accept c] = 0 := rfl
      rw [hcl]
      by_cases hcd : c = d
      · subst hcd
        left
        rw [if_pos rfl]
        exact ⟨by omega, i, Mathlib.Vector.get_set_same _ _ _⟩
      · rw [if_neg hcd]
        rcases h d hd with ⟨hbal, k, hk⟩ | ⟨hbal, hno⟩
        · left
          refine ⟨by omega, k, ?_⟩
          have hki : i ≠ k := by
            rintro rfl
            omega
          rw [Mathlib.Vector.get_set_of_ne hki]
          exact hk
        · right
          refine ⟨by omega, ?_⟩
          intro k
          by_cases hki : i = k
          · subst hki
            rw [Mathlib.Vector.get_set_same]
            exact hcd
          · rw [Mathlib.Vector.get_set_of_ne hki]
            exact hno k
    · rw [h4]
      intro d hd
      show (accept_count d (s.trace ++ [Event.accept c, Event.close c]) =
          close_count d (s.trace ++ [Event.accept c, Event.close c]) + 1 ∧
          ∃ k, s.client_fds.get k = d) ∨
        (accept_count d (s.trace ++ [Event.accept c, Event.close c]) =
          close_count d (s.trace ++ [Event.accept c, Event.close c]) ∧
          ∀ k, s.client_fds.get k ≠ d)
      have hsplit : [Event.accept c, Event.close c] = [Event.accept c] ++ [Event.close c] :=
        rfl
      rw [hsplit, accept_count_append, close_count_append, accept_count_append,
        close_count_append, accept_count_single, close_count_single]
      have h1 : accept_count d [Event.close c] = 0 := rfl
      have h2 : close_count d [Event.accept c] = 0 := rfl
      rw [h1, h2]
      by_cases hcd : c = d
      · subst hcd
        right
        rw [if_pos rfl]
        exact ⟨by omega, hslot⟩
      · rw [if_neg hcd]
        rcases h d hd with ⟨hbal, k, hk⟩ | ⟨hbal, hno⟩
        · exact Or.inl ⟨by omega, k, hk⟩
        · exact Or.inr ⟨by omega, hno⟩
  · have hneg : c < 0 := by omega
    have hstate : listener_iteration s c = s.log (Event.accept c) := by
      unfold listener_iteration
      simp [hneg]
    rw [hstate]
    apply balanced_of_same s (s.log (Event.accept c)) rfl _ _ h
    · intro d hd
      show accept_count d (s.trace ++ [Event.accept c]) = _
      rw [accept_count_append, accept_count_single, if_neg (by omega)]
      rfl
    · intro d _
      show close_count d (s.trace ++ [Event.accept c]) = _
      rw [close_count_append]
      rfl

theorem balanced_call (s : State) (c : Call) (hi : table_invariant s) (h : balanced s) :
    balanced (c.run s) := by
  have hlogi := table_invariant_log
  cases c with
  | read fd buf count ret mem send_ret =>
    show balanced (read s fd buf count ret mem send_ret).2
    have h1 := balanced_log s (Event.real_read fd buf count) rfl h
    have h2 := hlogi s (Event.real_read fd buf count) rfl hi
    rw [read_state]
    split_ifs
    · exact balanced_broadcast (s.log (Event.real_read fd buf count)) mem
        (to_size_t ret) send_ret h2 h1
    · exact h1
  | write fd buf count ret mem send_ret =>
    show balanced (write s fd buf count ret mem send_ret).2
    have h1 := balanced_log s (Event.real_write fd buf count) rfl h
    have h2 := hlogi s (Event.real_write fd buf count) rfl hi
    rw [write_state]
    split_ifs
    · exact balanced_broadcast (s.log (Event.real_write fd buf count)) mem
        (to_size_t ret) send_ret h2 h1
    · exact h1
  | tcsetattr fd optional_actions termios_p ret =>
    exact balanced_log { s with serial_fd := fd }
      (Event.real_tcsetattr fd optional_actions termios_p) rfl h

theorem balanced_step (s : State) (st : Step) (hi : table_invariant s) (h : balanced s)
    (hfresh : st.fresh s) : balanced (st.run s) := by
  cases st with
  | accept c => exact balanced_accept s c hi h hfresh
  | broadcast buffer bytes send_ret => exact balanced_broadcast s buffer bytes send_ret hi h
  | call c => exact balanced_call s c hi h

/-- From an empty table and an empty history, every sequence of steps with fresh
accepts keeps the table invariant and the balance of accepts and closes. -/
theorem reachable_invariants (steps : List Step) (s : State)
    (hi : table_invariant s) (hb : balanced s) (hfresh : accepts_fresh s steps) :
    table_invariant (run_steps s steps) ∧ balanced (run_steps s steps) := by
  induction steps generalizing s with
  | nil => exact ⟨hi, hb⟩
  | cons st rest ih =>
    rw [run_steps_cons]
    rw [accepts_fresh_cons] at hfresh
    exact ih _ (table_invariant_step s st hi hfresh.1) (balanced_step s st hi hb hfresh.1)
      hfresh.2

theorem balanced_empty (s : State) (hinit : s.client_fds = empty_table)
    (htrace : s.trace = []) : balanced s := by
  intro d hd
  right
  rw [htrace, hinit]
  refine ⟨rfl, ?_⟩
  intro k
  rw [get_empty_table]
  omega

/-- C7: in every state reached from the initialised one (the table may be completely
full), if some slot holds an observer whose send in the next `broadcast` does not
transfer the full count, then after that broadcast the observer's descriptor has been
closed exactly once and its slot holds `-1`; a connection accepted next is stored in an
empty slot and not closed; and afterwards no accepted connection is leaked or closed
twice: every non-negative descriptor has either been accepted once more than closed
and sits in exactly one slot, or has been closed as often as accepted and sits in no
slot.  In particular a descriptor that accept has returned once is in exactly one slot
or has been closed exactly once. -/
theorem stalled_observer_evicted_and_slot_reused (steps : List Step) (s0 s s1 s2 : State)
    (buffer : List Byte) (b : Nat) (send_ret : Fin MAX_CLIENTS → Int)
    (i : Fin MAX_CLIENTS) (c : Int)
    (hinit : s0.client_fds = empty_table) (htrace : s0.trace = [])
    (hfresh : accepts_fresh s0 steps) (hs : s = run_steps s0 steps)
    (hb : 1 ≤ b ∧ b ≤ 2 ^ 63 - 1) (hr : ssize_range send_ret)
    (hi : 0 ≤ s.client_fds.get i) (hstall : send_ret i ≠ (b : Int))
    (hs1 : s1 = broadcast buffer b send_ret s)
    (hc : 0 ≤ c) (hcfresh : c ∉ open_fds s1.trace)
    (hs2 : s2 = listener_iteration s1 c) :
    (close_count (s.client_fds.get i) (issued_since s s1) = 1 ∧
      s1.client_fds.get i = -1) ∧
    (∃ k, s1.client_fds.get k = -1 ∧ s2.client_fds = s1.client_fds.set k c ∧
      issued_since s1 s2 = [Event.accept c]) ∧
    (∀ d, 0 ≤ d →
      (accept_count d s2.trace = close_count d s2.trace + 1 ∧
        ∃! k, s2.client_fds.get k = d) ∨
      (accept_count d s2.trace = close_count d s2.trace ∧
        ∀ k, s2.client_fds.get k ≠ d)) ∧
    (∀ d, 0 ≤ d → accept_count d s2.trace = 1 →
      (∃! k, s2.client_fds.get k = d) ∨ close_count d s2.trace = 1) := by
  obtain ⟨hinv, hbal⟩ := reachable_invariants steps s0 (table_invariant_empty s0 hinit)
    (balanced_empty s0 hinit htrace) hfresh
  rw [← hs] at hinv hbal
  have hinv1 : table_invariant s1 := hs1 ▸ table_invariant_broadcast s buffer b send_ret hinv
  have hbal1 : balanced s1 := hs1 ▸ balanced_broadcast s buffer b send_ret hinv hbal
  have hinv2 : table_invariant s2 :=
    hs2 ▸ table_invariant_accept s1 c hinv1 (fun _ => hcfresh)
  have hbal2 : balanced s2 := hs2 ▸ balanced_accept s1 c hinv1 hbal1 (fun _ => hcfresh)
  have hshort : to_size_t (send_ret i) ≠ b :=
    fun h => hstall ((to_size_t_eq_iff (send_ret i) b (hr i) hb).mp h)
  have hempty : s1.client_fds.get i = -1 := by
    rw [hs1, broadcast_get, if_pos ⟨hi, hshort⟩]
  have hall : ∀ d, 0 ≤ d →
      (accept_count d s2.trace = close_count d s2.trace + 1 ∧
        ∃! k, s2.client_fds.get k = d) ∨
      (accept_count d s2.trace = close_count d s2.trace ∧
        ∀ k, s2.client_fds.get k ≠ d) := by
    intro d hd
    rcases hbal2 d hd with ⟨h1, k, hk⟩ | h2
    · left
      refine ⟨h1, k, hk, ?_⟩
      intro j hj
      have hne : s2.client_fds.get j ≠ -1 := by
        rw [hj]
        omega
      exact hinv2.2 j k (hj.trans hk.symm) hne
    · exact Or.inr h2
  refine ⟨⟨?_, hempty⟩, ?_, hall, ?_⟩
  · rw [hs1, broadcast_issued,
      close_count_visited buffer b send_ret s.client_fds (distinct_of_invariant s hinv) i hi
        _ (List.nodup_finRange _),
      if_pos ⟨List.mem_finRange i, hshort⟩]
  · rcases listener_iteration_spec s1 c hc with ⟨k, hk, _, h5⟩ | ⟨hfull, _⟩
    · refine ⟨k, hk, ?_, ?_⟩
      · rw [hs2, h5]
      · rw [hs2, h5]
        simp [issued_since]
    · exact absurd hempty (hfull i)
  · intro d hd hone
    rcases hall d hd with ⟨_, hslot⟩ | ⟨h2, _⟩
    · exact Or.inl hslot
    · right
      omega

theorem stalled_observer_evicted_and_slot_reused_witness :
    (run_steps booted eight_observers).client_fds =
      ⟨[9, 10, 11, 12, 13, 14, 15, 16], rfl⟩ ∧
    close_count 12 (issued_since (run_steps booted eight_observers)
      (broadcast [88, 89] 2 slot3_stalled (run_steps booted eight_observers))) = 1 ∧
    (listener_iteration
      (broadcast [88, 89] 2 slot3_stalled (run_steps booted eight_observers)) 17).client_fds =
        ⟨[9, 10, 11, 17, 13, 14, 15, 16], rfl⟩ ∧
    delivered 9 (run_steps booted xy_twice_then_third).trace = [88, 89, 88, 89] ∧
    delivered 10 (run_steps booted xy_twice_then_third).trace = [] ∧
    close_count 10 (run_steps booted xy_twice_then_third).trace = 1 ∧
    (run_steps booted xy_twice_then_third).client_fds =
      ⟨[9, 11, -1, -1, -1, -1, -1, -1], rfl⟩ :=
  ⟨rfl,
    (stalled_observer_evicted_and_slot_reused eight_observers booted
      (run_steps booted eight_observers)
      (broadcast [88, 89] 2 slot3_stalled (run_steps booted eight_observers))
      (listener_iteration
        (broadcast [88, 89] 2 slot3_stalled (run_steps booted eight_observers)) 17)
      [88, 89] 2 slot3_stalled 3 17 rfl rfl
      ⟨by decide, by decide, by decide, by decide, by decide, by decide, by decide,
        by decide, trivial⟩
      rfl (by decide) (by decide) (by decide) (by decide) rfl (by decide) (by decide)
      rfl).1.1,
    rfl, rfl, rfl, rfl, rfl⟩

/-! ## Overlapping invocations of `broadcast` -/

/-- C10, at the failing interleaving `reuse_schedule`: the schedule is possible, and
at its end two invocations (1, then 0) have won the compare-and-swap on their
observation of connection 0, both have called `close(5)`, the second call closed
connection 1, which no send had failed on, and slot 0 is empty again. -/
theorem two_invocations_win_the_swap_when_descriptor_is_reused :
    (power_on.exec reuse_schedule).map (fun m => swap_winners 0 m.log) = some [1, 0] ∧
    (power_on.exec reuse_schedule).map (fun m => closes_by_observers 0 m.log) =
      some [(1, some 0), (0, some 1)] ∧
    (power_on.exec reuse_schedule).map (fun m => (m.client_fds, m.sockets)) =
      some (empty_table, []) :=
  ⟨rfl, rfl, rfl⟩

end TcpSerialHook
